import Mathlib

/-!
Verification of the region/surface statistics aggregation and flattening
pipeline of a Google-Ads transparency scraper.

The Lean definitions below are a shallow embedding, at value level, of
`src/extractors/ads_parser.py`, `src/extractors/utils_region.py`,
`src/extractors/targeting_parser.py` and the impression-range helper of
`src/extractors/google_ads_parser.py`.  Python `dict`s keyed by strings are
embedded as insertion-ordered association lists; the "insert or merge into
the first entry with the same key" discipline of a Python dict accumulation
is captured once, generically, by `upsert` / `collapseBy` below.
-/

set_option maxHeartbeats 1000000
set_option linter.unusedSectionVars false

namespace Scraper

universe u v

variable {α : Type u} {κ : Type v} [DecidableEq κ]


/-! String comparison (`<` on `String` is code-point lexicographic — exactly
Python's string comparison).  The library's decidability instance for it is
defined through position iterators and does not reduce in the kernel, so the
two instances below re-route it through the character list, letting the
concrete examples later in the file evaluate by `decide`. -/

instance (priority := 2000) decLtString (a b : String) : Decidable (a < b) :=
  decidable_of_iff (a.toList < b.toList) String.lt_iff_toList_lt.symm

instance (priority := 2000) decLeString (a b : String) : Decidable (a ≤ b) :=
  decidable_of_iff (a.toList ≤ b.toList) String.le_iff_toList_le.symm

/-- One step of a Python dict accumulation keyed by `key`: if the list already
holds an element with the same key, the first such occurrence is replaced in
place by `merge old x` (Python mutates the stored object, keeping its
position); otherwise `x` is appended at the end (dict insertion order). -/
def upsert (key : α → κ) (merge : α → α → α) (x : α) : List α → List α
  | [] => [x]
  | y :: ys => if key y = key x then merge y x :: ys else y :: upsert key merge x ys

/-- Fold a list into an insertion-ordered, key-deduplicated list, merging
collisions — the value-level content of accumulating into a Python `dict`. -/
def collapseBy (key : α → κ) (merge : α → α → α) (xs : List α) : List α :=
  xs.foldl (fun acc x => upsert key merge x acc) []

/-- The distinct keys of a list, in order of first occurrence. -/
def firstKeys (key : α → κ) (xs : List α) : List κ :=
  xs.foldl (fun acc x => if key x ∈ acc then acc else acc ++ [key x]) []

/-- Collapse a group sharing one key: a left fold of `merge` from its head.
`none` on the empty group. -/
def collapseGroup (merge : α → α → α) : List α → Option α
  | [] => none
  | x :: xs => some (xs.foldl merge x)

/-- The sub-list of `xs` whose `key` is `k`, in input order. -/
def keyGroup (key : α → κ) (k : κ) (xs : List α) : List α :=
  xs.filter (fun a => decide (key a = k))

/-! ## Data model (`ads_parser.py` dataclasses)

Python `int` is embedded as `Int` (unbounded, may be negative after a weird
coercion input), date strings as `String` compared by code points, which is
exactly Python's string comparison. -/

/-- The `ImpressionRange` dataclass of `ads_parser.py`. -/
structure ImpressionRange where
  lower_bound : Int
  upper_bound : Int
  deriving DecidableEq, Repr

/-- The `SurfaceServingStat` dataclass of `ads_parser.py`. -/
structure SurfaceServingStat where
  surface_code : String
  surface_name : String
  impressions : ImpressionRange
  deriving DecidableEq, Repr

/-- The `RegionStat` dataclass of `ads_parser.py`. -/
structure RegionStat where
  region_code : String
  region_name : String
  first_shown : String
  last_shown : String
  impressions : ImpressionRange
  surface_serving_stats : List SurfaceServingStat
  deriving DecidableEq, Repr

/-- The `AdVariation` dataclass of `ads_parser.py`. -/
structure AdVariation where
  click_url : Option String
  cta : Option String
  description : Option String
  image_url : Option String
  deriving DecidableEq, Repr

/-- The `TargetingInfo` dataclass of `targeting_parser.py`; each category is a
Python dict `str -> bool`, embedded as an insertion-ordered association list
(no duplicate keys, by construction). -/
structure TargetingInfo where
  demographics : List (String × Bool)
  geography : List (String × Bool)
  contextual : List (String × Bool)
  advertiser_list : List (String × Bool)
  deriving DecidableEq, Repr

/-- The `AdRecord` dataclass of `ads_parser.py`. -/
structure AdRecord where
  ad_library_url : String
  advertiser_id : String
  advertiser_name : String
  creative_id : String
  format : String
  first_shown : String
  last_shown : String
  preview_url : Option String
  start_url : Option String
  region_stats : List RegionStat
  targeting : Option TargetingInfo
  variations : List AdVariation
  deriving DecidableEq, Repr

/-! ## `normalize_region_stats` (`utils_region.py`)

The Python function accumulates regions into an insertion-ordered dict keyed
by `(region_code, region_name)`, mutating the first (canonical) entry of each
key in place; value-wise this is exactly `collapseBy regionKey mergeRegion`.
The second loop collapses each canonical region's surface list by
`surface_code` the same way.  The final `sorted(...)` is Python's stable sort
by the key tuple; since the collapsed list has pairwise-distinct keys, any
sort by the same (total) key order produces the identical list, and we embed
it as an insertion sort. -/

/-- The grouping identity `(region_code, region_name)` used by
`normalize_region_stats`. -/
def regionKey (r : RegionStat) : String × String := (r.region_code, r.region_name)

/-- The grouping identity `surface_code` used by the surface-merging loop. -/
def surfKey (s : SurfaceServingStat) : String := s.surface_code

/-- Merge of a later same-key raw region into the canonical `existing` entry —
the `else` branch of the first loop of `normalize_region_stats`: impressions
are summed bound-wise, `first_shown` keeps the smaller non-empty value,
`last_shown` the larger non-empty value (Python `region_last > existing_last`),
and the surface lists are concatenated. -/
def mergeRegion (existing region : RegionStat) : RegionStat :=
  { existing with
    impressions :=
      ⟨existing.impressions.lower_bound + region.impressions.lower_bound,
       existing.impressions.upper_bound + region.impressions.upper_bound⟩
    first_shown :=
      if region.first_shown ≠ "" ∧
          (existing.first_shown = "" ∨ region.first_shown < existing.first_shown) then
        region.first_shown
      else existing.first_shown
    last_shown :=
      if region.last_shown ≠ "" ∧
          (existing.last_shown = "" ∨ existing.last_shown < region.last_shown) then
        region.last_shown
      else existing.last_shown
    surface_serving_stats :=
      existing.surface_serving_stats ++ region.surface_serving_stats }

/-- Merge of a later same-code surface into the canonical `existing` surface —
the `else` branch of the surface loop: impressions are summed bound-wise, all
other fields (`surface_name` in particular) are retained from the first
occurrence. -/
def mergeSurface (existing s : SurfaceServingStat) : SurfaceServingStat :=
  { existing with
    impressions :=
      ⟨existing.impressions.lower_bound + s.impressions.lower_bound,
       existing.impressions.upper_bound + s.impressions.upper_bound⟩ }

/-- `region.surface_serving_stats = list(merged_surfaces.values())` for one
canonical region. -/
def mergeRegionSurfaces (r : RegionStat) : RegionStat :=
  { r with surface_serving_stats := collapseBy surfKey mergeSurface r.surface_serving_stats }

/-- Python's lexicographic `tuple` comparison on `(region_code, region_name)`. -/
def pairLe (a b : String × String) : Prop :=
  a.1 < b.1 ∨ (a.1 = b.1 ∧ a.2 ≤ b.2)

instance : DecidableRel pairLe := fun a b =>
  inferInstanceAs (Decidable (a.1 < b.1 ∨ (a.1 = b.1 ∧ a.2 ≤ b.2)))

/-- The sort order of the final `sorted(by_key.values(), key=...)`. -/
def regionLe (a b : RegionStat) : Prop := pairLe (regionKey a) (regionKey b)

instance : DecidableRel regionLe := fun a b =>
  inferInstanceAs (Decidable (pairLe (regionKey a) (regionKey b)))

instance : IsTotal RegionStat regionLe :=
  ⟨fun x y => by
    rcases lt_trichotomy (regionKey x).1 (regionKey y).1 with h | h | h
    · exact Or.inl (Or.inl h)
    · rcases le_total (regionKey x).2 (regionKey y).2 with h2 | h2
      · exact Or.inl (Or.inr ⟨h, h2⟩)
      · exact Or.inr (Or.inr ⟨h.symm, h2⟩)
    · exact Or.inr (Or.inl h)⟩

instance : IsTrans RegionStat regionLe :=
  ⟨fun x y z hab hbc => by
    rcases hab with h1 | ⟨h1, h1'⟩
    · rcases hbc with h2 | ⟨h2, _⟩
      · exact Or.inl (lt_trans h1 h2)
      · exact Or.inl (h2 ▸ h1)
    · rcases hbc with h2 | ⟨h2, h2'⟩
      · exact Or.inl (h1 ▸ h2)
      · exact Or.inr ⟨h1.trans h2, le_trans h1' h2'⟩⟩

/-- Value-level embedding of `normalize_region_stats` (`utils_region.py`):
group by `(region_code, region_name)` merging duplicates into the first
occurrence, then merge each canonical region's surfaces by `surface_code`,
then sort by the key tuple. -/
def normalize_region_stats (rs : List RegionStat) : List RegionStat :=
  List.insertionSort regionLe
    ((collapseBy regionKey mergeRegion rs).map mergeRegionSurfaces)

/-! ### Projections of a merged same-key group -/

/-- The `first_shown` update rule of the region merge, on bare strings. -/
def mergeShownFirst (a b : String) : String :=
  if b ≠ "" ∧ (a = "" ∨ b < a) then b else a

/-- The `last_shown` update rule of the region merge, on bare strings. -/
def mergeShownLast (a b : String) : String :=
  if b ≠ "" ∧ (a = "" ∨ a < b) then b else a

/-! ## Row flattening (`AdRecord.to_flat_dicts`)

Each row is a Python dict with string keys built by successive
`row.update(...)` calls over the five field groups; the groups use pairwise
distinct keys, so the row is embedded as the concatenation of five
association lists in update order. -/

/-- A Python value stored in a flattened row: a string, an int, or `None`
(optional URL and variation fields are passed through unconverted). -/
inductive Val where
  | vs (s : String)
  | vi (n : Int)
  | vnone
  deriving DecidableEq, Repr

/-- A flattened row (insertion-ordered dict with string keys). -/
abbrev Row := List (String × Val)

/-- The keys of a row, in insertion order. -/
def rowKeys (row : Row) : List String := row.map Prod.fst

/-- A Python `Optional[str]` stored into a row. -/
def optVal : Option String → Val
  | none => Val.vnone
  | some s => Val.vs s

/-- Python `sorted` on a list of strings (code-point lexicographic). -/
def sortStrings (l : List String) : List String :=
  List.insertionSort (fun a b : String => a ≤ b) l

/-- `",".join(sorted(k for k, v in d.items() if v))` — the comma-joined sorted
active category codes of one targeting category. -/
def activeCodes (m : List (String × Bool)) : String :=
  String.intercalate "," (sortStrings ((m.filter (fun p => p.2)).map Prod.fst))

/-- The `base` dict of `to_flat_dicts`. -/
def baseDict (ad : AdRecord) : Row :=
  [("adLibraryUrl", Val.vs ad.ad_library_url),
   ("advertiserId", Val.vs ad.advertiser_id),
   ("advertiserName", Val.vs ad.advertiser_name),
   ("creativeId", Val.vs ad.creative_id),
   ("format", Val.vs ad.format),
   ("firstShown", Val.vs ad.first_shown),
   ("lastShown", Val.vs ad.last_shown),
   ("previewUrl", optVal ad.preview_url),
   ("startUrl", optVal ad.start_url)]

/-- The `targeting_dict` of `to_flat_dicts`: empty when `self.targeting` is
`None` (a non-`None` `TargetingInfo` dataclass instance is always truthy). -/
def targetingDict (ad : AdRecord) : Row :=
  match ad.targeting with
  | none => []
  | some t =>
    [("targetingDemographicsTrue", Val.vs (activeCodes t.demographics)),
     ("targetingGeographyTrue", Val.vs (activeCodes t.geography)),
     ("targetingContextualTrue", Val.vs (activeCodes t.contextual)),
     ("targetingAdvertiserListTrue", Val.vs (activeCodes t.advertiser_list))]

/-- The `region_dict` of one row. -/
def regionDict (region : RegionStat) : Row :=
  [("regionCode", Val.vs region.region_code),
   ("regionName", Val.vs region.region_name),
   ("regionFirstShown", Val.vs region.first_shown),
   ("regionLastShown", Val.vs region.last_shown),
   ("regionImpressionsLower", Val.vi region.impressions.lower_bound),
   ("regionImpressionsUpper", Val.vi region.impressions.upper_bound)]

/-- The `surface_dict` of one row. -/
def surfaceDict (surface : SurfaceServingStat) : Row :=
  [("surfaceCode", Val.vs surface.surface_code),
   ("surfaceName", Val.vs surface.surface_name),
   ("surfaceImpressionsLower", Val.vi surface.impressions.lower_bound),
   ("surfaceImpressionsUpper", Val.vi surface.impressions.upper_bound)]

/-- The `variation_dict` of one row. -/
def variationDict (v : AdVariation) : Row :=
  [("variationClickUrl", optVal v.click_url),
   ("variationCta", optVal v.cta),
   ("variationDescription", optVal v.description),
   ("variationImageUrl", optVal v.image_url)]

/-- The synthetic empty region substituted when `region_stats` is empty. -/
def syntheticRegion : RegionStat :=
  { region_code := "", region_name := "", first_shown := "", last_shown := ""
    impressions := ⟨0, 0⟩, surface_serving_stats := [] }

/-- The synthetic empty surface substituted when a region has no surfaces. -/
def syntheticSurface : SurfaceServingStat :=
  { surface_code := "", surface_name := "", impressions := ⟨0, 0⟩ }

/-- The synthetic empty variation substituted when `variations` is empty. -/
def syntheticVariation : AdVariation :=
  { click_url := none, cta := none, description := none, image_url := none }

/-- The rows contributed by one region: the inner two loops of
`to_flat_dicts` (surfaces, then variations). -/
def surfaceRows (ad : AdRecord) (variations : List AdVariation)
    (region : RegionStat) : List Row :=
  let surfaces := if region.surface_serving_stats.isEmpty then [syntheticSurface]
    else region.surface_serving_stats
  (surfaces.map (fun surface =>
    variations.map (fun variation =>
      baseDict ad ++ regionDict region ++ surfaceDict surface ++
        targetingDict ad ++ variationDict variation))).flatten

/-- `AdRecord.to_flat_dicts` (`ads_parser.py` lines 51-136): one row per
(region × surface-within-region × variation), with synthetic substitutes for
empty region/surface/variation collections (`xs or [synthetic]`). -/
def AdRecord.to_flat_dicts (ad : AdRecord) : List Row :=
  let regions := if ad.region_stats.isEmpty then [syntheticRegion] else ad.region_stats
  let variations := if ad.variations.isEmpty then [syntheticVariation] else ad.variations
  (regions.map (surfaceRows ad variations)).flatten

/-- The fixed ad-metadata keys. -/
def baseKeys : List String :=
  ["adLibraryUrl", "advertiserId", "advertiserName", "creativeId", "format",
   "firstShown", "lastShown", "previewUrl", "startUrl"]

/-- The fixed region keys. -/
def regionFieldKeys : List String :=
  ["regionCode", "regionName", "regionFirstShown", "regionLastShown",
   "regionImpressionsLower", "regionImpressionsUpper"]

/-- The fixed surface keys. -/
def surfaceFieldKeys : List String :=
  ["surfaceCode", "surfaceName", "surfaceImpressionsLower", "surfaceImpressionsUpper"]

/-- The four targeting summary keys. -/
def targetingFieldKeys : List String :=
  ["targetingDemographicsTrue", "targetingGeographyTrue", "targetingContextualTrue",
   "targetingAdvertiserListTrue"]

/-- The fixed variation keys. -/
def variationFieldKeys : List String :=
  ["variationClickUrl", "variationCta", "variationDescription", "variationImageUrl"]

/-! ## Dynamic Python values

The raw payloads consumed by `parse_ads`, `parse_targeting` and the two
impression-range parsers are arbitrary JSON-shaped Python objects.  They are
embedded as `PyVal`; dict keys are hashable scalars (`PyKey`).  Operations
that can raise (`x.get` on a non-dict, iterating a non-list) return
`Except String`, the error string naming the Python exception class. -/

/-- A hashable Python scalar usable as a dict key. -/
inductive PyKey where
  | knone
  | kbool (b : Bool)
  | kint (n : Int)
  | kstr (s : String)
  deriving DecidableEq, Repr

/-- A dynamic Python value as found in raw scraped payloads. -/
inductive PyVal where
  | vnone
  | vbool (b : Bool)
  | vint (n : Int)
  | vstr (s : String)
  | vlist (xs : List PyVal)
  | vdict (xs : List (PyKey × PyVal))

/-- Python truthiness. -/
def PyVal.truthy : PyVal → Bool
  | .vnone => false
  | .vbool b => b
  | .vint n => n != 0
  | .vstr s => s != ""
  | .vlist xs => !xs.isEmpty
  | .vdict xs => !xs.isEmpty

/-- A single-quote character, as a string. -/
def squote : String := String.singleton (Char.ofNat 39)

/-- Python `str` of a dict key. -/
def PyKey.pyStr : PyKey → String
  | .knone => "None"
  | .kbool b => if b then "True" else "False"
  | .kint n => toString n
  | .kstr s => s

/-- Python `repr` of a dict key (strings quoted). -/
def PyKey.reprK : PyKey → String
  | .kstr s => squote ++ s ++ squote
  | k => k.pyStr

/-- Python `repr`, up to quote escaping inside strings (exact for the
quote-free strings occurring in this data). -/
def pyRepr : PyVal → String
  | .vnone => "None"
  | .vbool b => if b then "True" else "False"
  | .vint n => toString n
  | .vstr s => squote ++ s ++ squote
  | .vlist xs =>
    "[" ++ String.intercalate ", " (xs.attach.map (fun p => pyRepr p.1)) ++ "]"
  | .vdict xs =>
    "\x7b" ++ String.intercalate ", "
      (xs.attach.map (fun p => PyKey.reprK p.1.1 ++ ": " ++ pyRepr p.1.2)) ++ "\x7d"
decreasing_by
  · have := List.sizeOf_lt_of_mem p.2
    simp_wf
    omega
  · have h1 := List.sizeOf_lt_of_mem p.2
    have h2 : sizeOf p.1.2 < sizeOf p.1 := by
      rcases p with ⟨⟨k, v⟩, hp⟩
      simp
    simp_wf
    omega

/-- Python `str(x)`: identity on strings, `repr` otherwise. -/
def PyVal.pyStr : PyVal → String
  | .vstr s => s
  | v => pyRepr v

/-- `d.get(k)` on a Python dict embedded as an association list. -/
def dictGet (d : List (PyKey × PyVal)) (k : PyKey) : Option PyVal :=
  (d.find? (fun p => p.1 == k)).map Prod.snd

/-- `d.get(k, dflt)`. -/
def dictGetD (d : List (PyKey × PyVal)) (k : PyKey) (dflt : PyVal) : PyVal :=
  (dictGet d k).getD dflt

/-- Character-level `str.strip()` (defined on the character list so that it
reduces in the kernel; `String.trim` computes the same result). -/
def stripChars (cs : List Char) : List Char :=
  ((cs.dropWhile (fun c => c.isWhitespace)).reverse.dropWhile
    (fun c => c.isWhitespace)).reverse

/-- `s.strip()`. -/
def pyStrip (s : String) : String := String.mk (stripChars s.data)

/-- `s.replace(",", "")` — for the one-character pattern this removes every
comma. -/
def stripCommas (s : String) : String :=
  String.mk (s.data.filter (fun c => c != ','))

/-- `int(s)` on a decimal string: optional surrounding whitespace, optional
sign, one or more digits; `none` models `ValueError`. -/
def digitsToNat : List Char → Option Nat
  | [] => none
  | cs =>
    if cs.all (fun c => c.isDigit) then
      some (cs.foldl (fun acc c => acc * 10 + (c.toNat - 48)) 0)
    else none

/-- `int(s)` for a Python string. -/
def pyStrToInt (s : String) : Option Int :=
  match (pyStrip s).data with
  | [] => none
  | c :: cs =>
    if c = '-' then (digitsToNat cs).map (fun n => -(n : Int))
    else if c = '+' then (digitsToNat cs).map (fun n => (n : Int))
    else (digitsToNat (c :: cs)).map (fun n => (n : Int))

/-- Python `int(x)` on a dynamic value; `none` models the
`TypeError`/`ValueError` caught by the callers. -/
def pyInt : PyVal → Option Int
  | .vint n => some n
  | .vbool b => some (if b then 1 else 0)
  | .vstr s => pyStrToInt s
  | _ => none

/-! ## Impression-range parsers -/

/-- One coerced bound of `_parse_impression_range`:
`raw.get("lowerBound", 0) or 0`. -/
def rawBound (d : List (PyKey × PyVal)) (k : String) : PyVal :=
  let v := dictGetD d (.kstr k) (.vint 0)
  if v.truthy then v else .vint 0

/-- `_parse_impression_range` of `ads_parser.py` (lines 138-150) on its
annotated domain `Dict | None`.  Total — every coercion failure is caught.
Note the single shared `try`: when `int(...)` fails on either bound, BOTH
bounds are zeroed. -/
def _parse_impression_range : Option (List (PyKey × PyVal)) → ImpressionRange
  | none => ⟨0, 0⟩
  | some d =>
    if d.isEmpty then ⟨0, 0⟩
    else
      match pyInt (rawBound d "lowerBound"), pyInt (rawBound d "upperBound") with
      | some l, some u => ⟨l, u⟩
      | _, _ => ⟨0, 0⟩

/-- The `ImpressionRange` dataclass of `google_ads_parser.py` (field names
`lowerBound`/`upperBound`). -/
structure GImpressionRange where
  lowerBound : Int
  upperBound : Int
  deriving DecidableEq, Repr

/-- The inner `to_int` of `_parse_impressions_range`
(`google_ads_parser.py` lines 151-157): a falsy value (`None` or `""`)
gives 0, otherwise `int(val.replace(",", "").strip())` with a `ValueError`
giving 0. -/
def to_int : Option String → Int
  | none => 0
  | some s =>
    if s = "" then 0
    else (pyStrToInt (pyStrip (stripCommas s))).getD 0

/-- `_parse_impressions_range` of `google_ads_parser.py` (lines 148-159):
each bound is coerced independently by its own `to_int` call. -/
def _parse_impressions_range (lower upper : Option String) : GImpressionRange :=
  ⟨to_int lower, to_int upper⟩

/-! ## Raw-payload parsers (`parse_ads` and helpers) -/

/-- `_parse_impression_range` on an arbitrary dynamic value, as invoked on
`item.get("impressions", {})`: a falsy non-dict is caught by the
`if not impressions_raw` guard; a truthy non-dict raises `AttributeError`
at `impressions_raw.get`. -/
def _parse_impression_range_dyn (v : PyVal) : Except String ImpressionRange :=
  match v with
  | .vdict d => .ok (_parse_impression_range (some d))
  | w => if w.truthy then .error "AttributeError" else .ok ⟨0, 0⟩

/-- The loop of `_parse_surface_stats` over the iterated items; a non-dict
item raises `AttributeError` at `item.get`. -/
def parseSurfaceItems : List PyVal → Except String (List SurfaceServingStat)
  | [] => .ok []
  | .vdict item :: rest => do
    let imp ← _parse_impression_range_dyn (dictGetD item (.kstr "impressions") (.vdict []))
    let tail ← parseSurfaceItems rest
    .ok ({ surface_code := (dictGetD item (.kstr "surfaceCode") (.vstr "")).pyStr
         , surface_name := (dictGetD item (.kstr "surfaceName") (.vstr "")).pyStr
         , impressions := imp } :: tail)
  | _ :: _ => .error "AttributeError"

/-- `_parse_surface_stats` of `ads_parser.py` (lines 152-166) on the dynamic
`item.get("surfaceServingStats", [])` value: falsy gives `[]`; a truthy
non-list fails when iterated or when a non-dict item hits `.get`
(`TypeError` / `AttributeError`, collapsed into one error value here). -/
def _parse_surface_stats_dyn (v : PyVal) : Except String (List SurfaceServingStat) :=
  if ¬ v.truthy then .ok []
  else
    match v with
    | .vlist xs => parseSurfaceItems xs
    | _ => .error "TypeError"

/-- The loop of `_parse_region_stats` over the iterated items. -/
def parseRegionItems : List PyVal → Except String (List RegionStat)
  | [] => .ok []
  | .vdict item :: rest => do
    let imp ← _parse_impression_range_dyn (dictGetD item (.kstr "impressions") (.vdict []))
    let surfaces ← _parse_surface_stats_dyn (dictGetD item (.kstr "surfaceServingStats") (.vlist []))
    let tail ← parseRegionItems rest
    .ok ({ region_code := (dictGetD item (.kstr "regionCode") (.vstr "")).pyStr
         , region_name := (dictGetD item (.kstr "regionName") (.vstr "")).pyStr
         , first_shown := (dictGetD item (.kstr "firstShown") (.vstr "")).pyStr
         , last_shown := (dictGetD item (.kstr "lastShown") (.vstr "")).pyStr
         , impressions := imp
         , surface_serving_stats := surfaces } :: tail)
  | _ :: _ => .error "AttributeError"

/-- `_parse_region_stats` of `ads_parser.py` (lines 168-189): parse each raw
region dict, then aggregate with `normalize_region_stats` (a falsy input
returns `[]` before the normalization call). -/
def _parse_region_stats_dyn (v : PyVal) : Except String (List RegionStat) :=
  if ¬ v.truthy then .ok []
  else
    match v with
    | .vlist xs => (parseRegionItems xs).map normalize_region_stats
    | _ => .error "TypeError"

/-- `_ensure_bool_map` of `targeting_parser.py` (lines 17-27): a non-dict
gives `{}`; a dict is rebuilt by `result[str(key)] = bool(value)` — an
insertion-ordered dict assignment, i.e. `collapseBy` on the stringified key
with the last same-key value winning. -/
def _ensure_bool_map (raw : PyVal) : List (String × Bool) :=
  match raw with
  | .vdict xs =>
    collapseBy Prod.fst (fun old new => (old.1, new.2))
      (xs.map (fun p => (p.1.pyStr, p.2.truthy)))
  | _ => []

/-- The body of `parse_targeting` once `targeting_raw` is truthy:
`category = targeting_raw.get("targetingCategory", {})` followed by four
`category.get(...)` calls, which raise `AttributeError` when `category` is
not a dict (`.get` on an absent key returns `None`, and
`_ensure_bool_map(None)` is `{}`). -/
def parseTargetingCategory (d : List (PyKey × PyVal)) : Except String TargetingInfo :=
  match dictGetD d (.kstr "targetingCategory") (.vdict []) with
  | .vdict cd =>
    .ok { demographics := _ensure_bool_map (dictGetD cd (.kstr "demographics") .vnone)
        , geography := _ensure_bool_map (dictGetD cd (.kstr "geography") .vnone)
        , contextual := _ensure_bool_map (dictGetD cd (.kstr "contextual") .vnone)
        , advertiser_list := _ensure_bool_map (dictGetD cd (.kstr "advertiserList") .vnone) }
  | _ => .error "AttributeError"

/-- `parse_targeting` of `targeting_parser.py` (lines 29-44) on its annotated
domain `Dict | None`. -/
def parse_targeting (raw : Option (List (PyKey × PyVal))) :
    Except String (Option TargetingInfo) :=
  match raw with
  | none => .ok none
  | some d =>
    if d.isEmpty then .ok none
    else (parseTargetingCategory d).map some

/-- `parse_targeting` as called from `parse_ads` on `raw.get("targeting")`. -/
def parse_targeting_dyn (v : PyVal) : Except String (Option TargetingInfo) :=
  if ¬ v.truthy then .ok none
  else
    match v with
    | .vdict d => (parseTargetingCategory d).map some
    | _ => .error "AttributeError"

/-- An `Optional[str]`-annotated field (`previewUrl`, variation fields):
`None` maps to `none`; a non-string scalar is retained via its `str` image
(the dataclass stores the raw object unchanged; no claim depends on this
corner). -/
def pyToOptStr : PyVal → Option String
  | .vnone => none
  | .vstr s => some s
  | v => some v.pyStr

/-- The loop of `_parse_variations` over the iterated items. -/
def parseVariationItems : List PyVal → Except String (List AdVariation)
  | [] => .ok []
  | .vdict item :: rest => do
    let tail ← parseVariationItems rest
    .ok ({ click_url := pyToOptStr (dictGetD item (.kstr "clickUrl") .vnone)
         , cta := pyToOptStr (dictGetD item (.kstr "cta") .vnone)
         , description := pyToOptStr (dictGetD item (.kstr "description") .vnone)
         , image_url := pyToOptStr (dictGetD item (.kstr "imageUrl") .vnone) } :: tail)
  | _ :: _ => .error "AttributeError"

/-- `_parse_variations` of `ads_parser.py` (lines 191-206). -/
def _parse_variations_dyn (v : PyVal) : Except String (List AdVariation) :=
  if ¬ v.truthy then .ok []
  else
    match v with
    | .vlist xs => parseVariationItems xs
    | _ => .error "TypeError"

/-- Construction of one `AdRecord` from one raw value — the body of the
`try` of `parse_ads` (`ads_parser.py` lines 216-230).  A non-dict raw value
raises at the first `raw.get`; the fallible sub-parsers run in keyword
order (`region_stats`, `targeting`, `variations`). -/
def buildAd (raw : PyVal) : Except String AdRecord :=
  match raw with
  | .vdict d => do
    let rstats ← _parse_region_stats_dyn (dictGetD d (.kstr "regionStats") .vnone)
    let targ ← parse_targeting_dyn (dictGetD d (.kstr "targeting") .vnone)
    let vars ← _parse_variations_dyn (dictGetD d (.kstr "variations") .vnone)
    .ok { ad_library_url := (dictGetD d (.kstr "adLibraryUrl") (.vstr "")).pyStr
        , advertiser_id := (dictGetD d (.kstr "advertiserId") (.vstr "")).pyStr
        , advertiser_name := (dictGetD d (.kstr "advertiserName") (.vstr "")).pyStr
        , creative_id := (dictGetD d (.kstr "creativeId") (.vstr "")).pyStr
        , format := (dictGetD d (.kstr "format") (.vstr "")).pyStr
        , first_shown := (dictGetD d (.kstr "firstShown") (.vstr "")).pyStr
        , last_shown := (dictGetD d (.kstr "lastShown") (.vstr "")).pyStr
        , preview_url := pyToOptStr (dictGetD d (.kstr "previewUrl") .vnone)
        , start_url := pyToOptStr (dictGetD d (.kstr "startUrl") .vnone)
        , region_stats := rstats
        , targeting := targ
        , variations := vars }
  | _ => .error "AttributeError"

/-- `parse_ads` of `ads_parser.py` (lines 208-237): each raw entry is parsed
inside `try/except Exception`; a failing entry is logged and skipped, and the
loop continues.  The function itself is total — it never propagates an
exception. -/
def parse_ads : List PyVal → List AdRecord
  | [] => []
  | raw :: rest =>
    match buildAd raw with
    | .ok ad => ad :: parse_ads rest
    | .error _ => parse_ads rest

/-! ## Object-identity model of `normalize_region_stats`

`normalize_region_stats` mutates the canonical region objects in place (its
own docstring says so).  To talk about mutation, `RStore` is a heap of
`RegionStat` objects addressed by index; the function receives the list of
addresses of its input objects and updates the heap. -/

/-- A heap of region objects; an address is an index. -/
abbrev RStore := List RegionStat

/-- Read an object (out-of-range reads return an inert empty region; the
modelled runs never read out of range). -/
def storeGet (st : RStore) (a : Nat) : RegionStat :=
  st.getD a syntheticRegion

/-- One iteration of the first loop of `normalize_region_stats`, on
addresses: a fresh key appends the address to the ordered canonical map, a
repeated key merges the incoming object into the canonical object in place. -/
def phase1Step (p : List Nat × RStore) (a : Nat) : List Nat × RStore :=
  let r := storeGet p.2 a
  match p.1.find? (fun b => decide (regionKey (storeGet p.2 b) = regionKey r)) with
  | none => (p.1 ++ [a], p.2)
  | some b => (p.1, p.2.set b (mergeRegion (storeGet p.2 b) r))

/-- One iteration of the second loop: collapse one canonical region's
surfaces in place. -/
def phase2Step (st : RStore) (a : Nat) : RStore :=
  st.set a (mergeRegionSurfaces (storeGet st a))

/-- The sort order of the final `sorted(...)`, read through the heap. -/
def storeRegionLe (st : RStore) (a b : Nat) : Prop :=
  regionLe (storeGet st a) (storeGet st b)

instance (st : RStore) : DecidableRel (storeRegionLe st) := fun a b =>
  inferInstanceAs (Decidable (regionLe (storeGet st a) (storeGet st b)))

/-- `normalize_region_stats`, object-identity version: returns the sorted
list of canonical addresses together with the final heap. -/
def normalize_region_stats_store (addrs : List Nat) (st : RStore) :
    List Nat × RStore :=
  let p := addrs.foldl phase1Step ([], st)
  let st2 := p.1.foldl phase2Step p.2
  (List.insertionSort (storeRegionLe st2) p.1, st2)

/-! ## Concrete sample values used by counterexamples and witnesses -/

/-- An ad record with no targeting, no regions and no variations. -/
def adNoTargeting : AdRecord :=
  { ad_library_url := "url", advertiser_id := "A1", advertiser_name := "Acme"
    creative_id := "C1", format := "TEXT", first_shown := "2024-01-01"
    last_shown := "2024-02-01", preview_url := none, start_url := none
    region_stats := [], targeting := none, variations := [] }

/-- A surface stat. -/
def usSurfaceA : SurfaceServingStat := ⟨"SEARCH", "Search", ⟨1, 2⟩⟩

/-- A duplicate-code surface stat. -/
def usSurfaceB : SurfaceServingStat := ⟨"SEARCH", "SearchDup", ⟨3, 4⟩⟩

/-- First raw US region entry. -/
def usRegion1 : RegionStat :=
  ⟨"US", "United States", "2024-01-05", "2024-02-01", ⟨100, 200⟩, [usSurfaceA]⟩

/-- Second raw US region entry (same identity key). -/
def usRegion2 : RegionStat :=
  ⟨"US", "United States", "2024-01-02", "2024-03-01", ⟨50, 75⟩, [usSurfaceB]⟩

/-- A raw region list with one duplicated identity key. -/
def sampleRegions : List RegionStat := [usRegion1, usRegion2]

/-- The aggregate of `sampleRegions` produced by `normalize_region_stats`. -/
def mergedUS : RegionStat :=
  ⟨"US", "United States", "2024-01-02", "2024-03-01", ⟨150, 275⟩,
    [⟨"SEARCH", "Search", ⟨4, 6⟩⟩]⟩

/-- Raw impressions dict with an uncoercible lower bound and a `None` upper. -/
def impRawAbcNone : List (PyKey × PyVal) :=
  [(.kstr "lowerBound", .vstr "abc"), (.kstr "upperBound", .vnone)]

/-- Raw impressions dict with an uncoercible lower bound and a coercible
upper bound. -/
def impRawAbcFive : List (PyKey × PyVal) :=
  [(.kstr "lowerBound", .vstr "abc"), (.kstr "upperBound", .vstr "5")]

/-- A raw targeting dict whose `targetingCategory` is not a mapping. -/
def targRawBad : List (PyKey × PyVal) := [(.kstr "targetingCategory", .vint 5)]

/-- A well-formed raw `targetingCategory` mapping (one truthy code, one falsy
code, one non-mapping sub-value). -/
def targCatGood : List (PyKey × PyVal) :=
  [(.kstr "demographics", .vdict [(.kstr "Age", .vint 1), (.kstr "Gender", .vint 0)]),
   (.kstr "geography", .vstr "oops")]

/-- A well-formed raw targeting dict. -/
def targRawGood : List (PyKey × PyVal) :=
  [(.kstr "targetingCategory", .vdict targCatGood)]

/-- A raw ad value that parses (all fields defaulted). -/
def adRawEmpty : PyVal := .vdict []

/-- A raw ad value whose `AdRecord` construction raises (`int.get`). -/
def adRawBad : PyVal := .vint 1

/-- A three-object heap: two same-key US regions and one Canadian region. -/
def storeEx : RStore :=
  [⟨"US", "US", "", "", ⟨1, 2⟩, []⟩,
   ⟨"US", "US", "", "", ⟨3, 4⟩, []⟩,
   ⟨"CA", "Canada", "", "", ⟨7, 8⟩, []⟩]

theorem collapseBy_append_singleton (key : α → κ) (merge : α → α → α)
    (xs : List α) (x : α) :
    collapseBy key merge (xs ++ [x]) = upsert key merge x (collapseBy key merge xs) := by
  simp [collapseBy, List.foldl_append]

theorem firstKeys_append_singleton (key : α → κ) (xs : List α) (x : α) :
    firstKeys key (xs ++ [x]) =
      if key x ∈ firstKeys key xs then firstKeys key xs
      else firstKeys key xs ++ [key x] := by
  simp [firstKeys, List.foldl_append]

theorem mem_firstKeys (key : α → κ) (xs : List α) (k : κ) :
    k ∈ firstKeys key xs ↔ k ∈ xs.map key := by
  induction xs using List.reverseRecOn with
  | nil => simp [firstKeys]
  | append_singleton xs x ih =>
    rw [firstKeys_append_singleton]
    by_cases h : key x ∈ firstKeys key xs
    · simp only [if_pos h, List.map_append, List.map_cons, List.map_nil, List.mem_append,
        List.mem_singleton, ih]
      constructor
      · exact fun hk => Or.inl hk
      · rintro (hk | rfl)
        · exact hk
        · exact ih.mp h
    · simp [if_neg h, ih]

theorem firstKeys_nodup (key : α → κ) (xs : List α) : (firstKeys key xs).Nodup := by
  induction xs using List.reverseRecOn with
  | nil => simp [firstKeys]
  | append_singleton xs x ih =>
    rw [firstKeys_append_singleton]
    by_cases h : key x ∈ firstKeys key xs
    · simpa [h] using ih
    · simpa [h, List.nodup_append] using ih

theorem upsert_of_not_mem (key : α → κ) (merge : α → α → α) (x : α)
    (l : List α) (h : key x ∉ l.map key) :
    upsert key merge x l = l ++ [x] := by
  induction l with
  | nil => rfl
  | cons y ys ih =>
    simp only [List.map_cons, List.mem_cons] at h
    push_neg at h
    have hne : key y ≠ key x := fun he => h.1 he.symm
    simp [upsert, if_neg hne, ih h.2]

theorem collapseGroup_append_singleton (merge : α → α → α) (g : List α) (x : α) :
    collapseGroup merge (g ++ [x]) =
      match collapseGroup merge g with
      | none => some x
      | some r => some (merge r x) := by
  cases g with
  | nil => rfl
  | cons y ys => simp [collapseGroup, List.foldl_append]

theorem keyGroup_append_singleton (key : α → κ) (k : κ) (xs : List α) (x : α) :
    keyGroup key k (xs ++ [x]) =
      keyGroup key k xs ++ (if key x = k then [x] else []) := by
  by_cases h : key x = k <;> simp [keyGroup, List.filter_append, h]

theorem keyGroup_eq_nil (key : α → κ) (k : κ) (xs : List α)
    (h : k ∉ xs.map key) : keyGroup key k xs = [] := by
  rw [keyGroup, List.filter_eq_nil_iff]
  intro a ha
  simp only [decide_eq_true_eq]
  exact fun he => h (he ▸ List.mem_map_of_mem key ha)

theorem keyGroup_ne_nil (key : α → κ) (k : κ) (xs : List α)
    (h : k ∈ xs.map key) : keyGroup key k xs ≠ [] := by
  obtain ⟨a, ha, rfl⟩ := List.mem_map.mp h
  intro hnil
  have : a ∈ keyGroup key (key a) xs := by
    simp [keyGroup, List.mem_filter, ha]
  rw [hnil] at this
  exact absurd this (List.not_mem_nil a)

theorem key_foldl_merge (key : α → κ) (merge : α → α → α)
    (hkey : ∀ a b, key (merge a b) = key a) :
    ∀ (l : List α) (x : α), key (l.foldl merge x) = key x := by
  intro l
  induction l with
  | nil => intro x; rfl
  | cons y ys ih => intro x; rw [List.foldl_cons, ih, hkey]

theorem collapseGroup_key (key : α → κ) (merge : α → α → α)
    (hkey : ∀ a b, key (merge a b) = key a) (k : κ) (xs : List α) (r : α)
    (h : collapseGroup merge (keyGroup key k xs) = some r) : key r = k := by
  cases hg : keyGroup key k xs with
  | nil => rw [hg] at h; exact absurd h (by simp [collapseGroup])
  | cons a g =>
    rw [hg] at h
    simp only [collapseGroup, Option.some.injEq] at h
    have ha : a ∈ keyGroup key k xs := by rw [hg]; exact List.mem_cons_self a g
    have : key a = k := by
      have := List.of_mem_filter ha
      simpa using this
    rw [← h, key_foldl_merge key merge hkey, this]

theorem collapseGroup_some_of_ne_nil (merge : α → α → α) (g : List α)
    (h : g ≠ []) : ∃ r, collapseGroup merge g = some r := by
  cases g with
  | nil => exact absurd rfl h
  | cons a l => exact ⟨l.foldl merge a, rfl⟩

theorem map_key_filterMap (key : α → κ) (ks : List κ) (g : κ → Option α)
    (hg : ∀ k ∈ ks, ∃ r, g k = some r ∧ key r = k) :
    (ks.filterMap g).map key = ks := by
  induction ks with
  | nil => rfl
  | cons k ks ih =>
    obtain ⟨r, hr, hkr⟩ := hg k (List.mem_cons_self k ks)
    rw [List.filterMap_cons, hr, List.map_cons, hkr,
      ih (fun k hk => hg k (List.mem_cons_of_mem _ hk))]

theorem upsert_filterMap (key : α → κ) (merge : α → α → α)
    (ks : List κ) (hnd : ks.Nodup) (g : κ → Option α)
    (hg : ∀ k ∈ ks, ∃ r, g k = some r ∧ key r = k) (x : α) (hx : key x ∈ ks) :
    upsert key merge x (ks.filterMap g) =
      ks.filterMap (fun k =>
        if k = key x then
          match g k with
          | none => some x
          | some r => some (merge r x)
        else g k) := by
  induction ks with
  | nil => exact absurd hx (List.not_mem_nil _)
  | cons k ks ih =>
    obtain ⟨r, hr, hkr⟩ := hg k (List.mem_cons_self k ks)
    rw [List.filterMap_cons, hr, List.filterMap_cons]
    by_cases hk : k = key x
    · rw [if_pos hk, hr]
      have hrx : key r = key x := by rw [hkr, hk]
      simp only [upsert, if_pos hrx]
      have htail : ∀ k' ∈ ks, (if k' = key x then
          match g k' with
          | none => some x
          | some r => some (merge r x)
          else g k') = g k' := by
        intro k' hk'
        have : k' ≠ key x := by
          intro he
          exact (List.nodup_cons.mp hnd).1 (by rw [hk, ← he]; exact hk')
        rw [if_neg this]
      rw [List.filterMap_congr htail]
    · rw [if_neg hk, hr]
      have hrx : key r ≠ key x := by rw [hkr]; exact hk
      simp only [upsert, if_neg hrx]
      have hx' : key x ∈ ks := by
        cases List.mem_cons.mp hx with
        | inl h => exact absurd h.symm hk
        | inr h => exact h
      rw [ih (List.nodup_cons.mp hnd).2 (fun k hk => hg k (List.mem_cons_of_mem _ hk)) hx']

/-- The central characterisation of a Python dict accumulation: the collapsed
list holds, for each distinct key in first-occurrence order, the left
`merge`-fold of the sub-list of entries carrying that key. -/
theorem collapseBy_eq_filterMap (key : α → κ) (merge : α → α → α)
    (hkey : ∀ a b, key (merge a b) = key a) (xs : List α) :
    collapseBy key merge xs =
      (firstKeys key xs).filterMap
        (fun k => collapseGroup merge (keyGroup key k xs)) := by
  induction xs using List.reverseRecOn with
  | nil => rfl
  | append_singleton xs x ih =>
    have hsome : ∀ k ∈ firstKeys key xs,
        ∃ r, collapseGroup merge (keyGroup key k xs) = some r ∧ key r = k := by
      intro k hk
      have hne := keyGroup_ne_nil key k xs ((mem_firstKeys key xs k).mp hk)
      obtain ⟨r, hr⟩ := collapseGroup_some_of_ne_nil merge _ hne
      exact ⟨r, hr, collapseGroup_key key merge hkey k xs r hr⟩
    rw [collapseBy_append_singleton, ih, firstKeys_append_singleton]
    by_cases h : key x ∈ firstKeys key xs
    · rw [if_pos h]
      rw [upsert_filterMap key merge _ (firstKeys_nodup key xs) _ hsome x h]
      apply List.filterMap_congr
      intro k hk
      rw [keyGroup_append_singleton]
      by_cases hkx : k = key x
      · rw [if_pos hkx, if_pos hkx.symm, collapseGroup_append_singleton]
      · rw [if_neg hkx, if_neg (fun he => hkx he.symm), List.append_nil]
    · rw [if_neg h, List.filterMap_append]
      have hold : (firstKeys key xs).filterMap
            (fun k => collapseGroup merge (keyGroup key k (xs ++ [x]))) =
          (firstKeys key xs).filterMap
            (fun k => collapseGroup merge (keyGroup key k xs)) := by
        apply List.filterMap_congr
        intro k hk
        rw [keyGroup_append_singleton,
          if_neg (fun he : key x = k => h (he ▸ hk)), List.append_nil]
      rw [hold]
      have hxg : keyGroup key (key x) (xs ++ [x]) = [x] := by
        rw [keyGroup_append_singleton,
          keyGroup_eq_nil key _ xs (fun hm => h ((mem_firstKeys key xs _).mpr hm)),
          if_pos rfl, List.nil_append]
      have hnew : List.filterMap
            (fun k => collapseGroup merge (keyGroup key k (xs ++ [x]))) [key x] = [x] := by
        simp [List.filterMap_cons, hxg, collapseGroup]
      rw [hnew]
      apply upsert_of_not_mem
      rw [map_key_filterMap key _ _ hsome]
      exact h

theorem map_key_collapseBy (key : α → κ) (merge : α → α → α)
    (hkey : ∀ a b, key (merge a b) = key a) (xs : List α) :
    (collapseBy key merge xs).map key = firstKeys key xs := by
  rw [collapseBy_eq_filterMap key merge hkey xs]
  apply map_key_filterMap
  intro k hk
  have hne := keyGroup_ne_nil key k xs ((mem_firstKeys key xs k).mp hk)
  obtain ⟨r, hr⟩ := collapseGroup_some_of_ne_nil merge _ hne
  exact ⟨r, hr, collapseGroup_key key merge hkey k xs r hr⟩

theorem nodup_map_key_collapseBy (key : α → κ) (merge : α → α → α)
    (hkey : ∀ a b, key (merge a b) = key a) (xs : List α) :
    ((collapseBy key merge xs).map key).Nodup := by
  rw [map_key_collapseBy key merge hkey xs]
  exact firstKeys_nodup key xs

theorem mem_collapseBy (key : α → κ) (merge : α → α → α)
    (hkey : ∀ a b, key (merge a b) = key a) (xs : List α) (r : α) :
    r ∈ collapseBy key merge xs ↔
      key r ∈ firstKeys key xs ∧
        collapseGroup merge (keyGroup key (key r) xs) = some r := by
  rw [collapseBy_eq_filterMap key merge hkey xs]
  rw [List.mem_filterMap]
  constructor
  · rintro ⟨k, hk, hg⟩
    have := collapseGroup_key key merge hkey k xs r hg
    subst this
    exact ⟨hk, hg⟩
  · rintro ⟨hk, hg⟩
    exact ⟨key r, hk, hg⟩

theorem collapseBy_of_nodup_keys (key : α → κ) (merge : α → α → α)
    (xs : List α) (h : (xs.map key).Nodup) :
    collapseBy key merge xs = xs := by
  induction xs using List.reverseRecOn with
  | nil => rfl
  | append_singleton xs x ih =>
    rw [List.map_append, List.nodup_append] at h
    rw [collapseBy_append_singleton, ih h.1]
    apply upsert_of_not_mem
    intro hm
    exact h.2.2 hm (by simp)

theorem regionKey_mergeRegion (e r : RegionStat) :
    regionKey (mergeRegion e r) = regionKey e := rfl

theorem surfKey_mergeSurface (e s : SurfaceServingStat) :
    surfKey (mergeSurface e s) = surfKey e := rfl

theorem regionKey_mergeRegionSurfaces (r : RegionStat) :
    regionKey (mergeRegionSurfaces r) = regionKey r := rfl

theorem mergeRegion_first (e r : RegionStat) :
    (mergeRegion e r).first_shown = mergeShownFirst e.first_shown r.first_shown := rfl

theorem mergeRegion_last (e r : RegionStat) :
    (mergeRegion e r).last_shown = mergeShownLast e.last_shown r.last_shown := rfl

theorem foldl_mergeRegion_lower (l : List RegionStat) :
    ∀ x : RegionStat, (l.foldl mergeRegion x).impressions.lower_bound =
      x.impressions.lower_bound + (l.map fun r => r.impressions.lower_bound).sum := by
  induction l with
  | nil => intro x; simp
  | cons y ys ih =>
    intro x
    rw [List.foldl_cons, ih]
    show (mergeRegion x y).impressions.lower_bound + _ = _
    simp [mergeRegion, add_assoc]

theorem foldl_mergeRegion_upper (l : List RegionStat) :
    ∀ x : RegionStat, (l.foldl mergeRegion x).impressions.upper_bound =
      x.impressions.upper_bound + (l.map fun r => r.impressions.upper_bound).sum := by
  induction l with
  | nil => intro x; simp
  | cons y ys ih =>
    intro x
    rw [List.foldl_cons, ih]
    show (mergeRegion x y).impressions.upper_bound + _ = _
    simp [mergeRegion, add_assoc]

theorem foldl_mergeRegion_surfaces (l : List RegionStat) :
    ∀ x : RegionStat, (l.foldl mergeRegion x).surface_serving_stats =
      x.surface_serving_stats ++ (l.map RegionStat.surface_serving_stats).flatten := by
  induction l with
  | nil => intro x; simp
  | cons y ys ih =>
    intro x
    rw [List.foldl_cons, ih]
    show (mergeRegion x y).surface_serving_stats ++ _ = _
    simp [mergeRegion, List.append_assoc]

theorem foldl_mergeRegion_first (l : List RegionStat) :
    ∀ x : RegionStat, (l.foldl mergeRegion x).first_shown =
      (l.map RegionStat.first_shown).foldl mergeShownFirst x.first_shown := by
  induction l with
  | nil => intro x; rfl
  | cons y ys ih =>
    intro x
    rw [List.foldl_cons, ih, List.map_cons, List.foldl_cons, mergeRegion_first]

theorem foldl_mergeRegion_last (l : List RegionStat) :
    ∀ x : RegionStat, (l.foldl mergeRegion x).last_shown =
      (l.map RegionStat.last_shown).foldl mergeShownLast x.last_shown := by
  induction l with
  | nil => intro x; rfl
  | cons y ys ih =>
    intro x
    rw [List.foldl_cons, ih, List.map_cons, List.foldl_cons, mergeRegion_last]

theorem foldl_mergeSurface_code (l : List SurfaceServingStat) :
    ∀ x : SurfaceServingStat, (l.foldl mergeSurface x).surface_code = x.surface_code := by
  induction l with
  | nil => intro x; rfl
  | cons y ys ih => intro x; rw [List.foldl_cons, ih]; rfl

theorem foldl_mergeSurface_name (l : List SurfaceServingStat) :
    ∀ x : SurfaceServingStat, (l.foldl mergeSurface x).surface_name = x.surface_name := by
  induction l with
  | nil => intro x; rfl
  | cons y ys ih => intro x; rw [List.foldl_cons, ih]; rfl

theorem foldl_mergeSurface_lower (l : List SurfaceServingStat) :
    ∀ x : SurfaceServingStat, (l.foldl mergeSurface x).impressions.lower_bound =
      x.impressions.lower_bound + (l.map fun s => s.impressions.lower_bound).sum := by
  induction l with
  | nil => intro x; simp
  | cons y ys ih =>
    intro x
    rw [List.foldl_cons, ih]
    show (mergeSurface x y).impressions.lower_bound + _ = _
    simp [mergeSurface, add_assoc]

theorem foldl_mergeSurface_upper (l : List SurfaceServingStat) :
    ∀ x : SurfaceServingStat, (l.foldl mergeSurface x).impressions.upper_bound =
      x.impressions.upper_bound + (l.map fun s => s.impressions.upper_bound).sum := by
  induction l with
  | nil => intro x; simp
  | cons y ys ih =>
    intro x
    rw [List.foldl_cons, ih]
    show (mergeSurface x y).impressions.upper_bound + _ = _
    simp [mergeSurface, add_assoc]

/-! ### The non-empty minimum / maximum computed by the shown-date folds -/

theorem mergeShownFirst_cases (a b : String) :
    mergeShownFirst a b = a ∨ mergeShownFirst a b = b := by
  unfold mergeShownFirst
  split
  · exact Or.inr rfl
  · exact Or.inl rfl

theorem mergeShownFirst_eq_empty (a b : String)
    (h : mergeShownFirst a b = "") : a = "" ∧ b = "" := by
  unfold mergeShownFirst at h
  split at h
  · next hc => exact absurd h hc.1
  · next hc =>
    push_neg at hc
    subst h
    by_cases hb : b = ""
    · exact ⟨rfl, hb⟩
    · rcases (hc hb) with ⟨ha, _⟩
      exact absurd rfl ha

theorem mergeShownFirst_le_left (a b : String) (ha : a ≠ "") :
    mergeShownFirst a b ≤ a := by
  unfold mergeShownFirst
  split
  · next hc =>
    rcases hc.2 with h | h
    · exact absurd h ha
    · exact le_of_lt h
  · exact le_refl a

theorem mergeShownFirst_le_right (a b : String) (hb : b ≠ "") :
    mergeShownFirst a b ≤ b := by
  unfold mergeShownFirst
  split
  · exact le_refl b
  · next hc =>
    push_neg at hc
    rcases hc hb with ⟨ha, hlt⟩
    exact le_of_not_lt hlt

theorem mergeShownLast_cases (a b : String) :
    mergeShownLast a b = a ∨ mergeShownLast a b = b := by
  unfold mergeShownLast
  split
  · exact Or.inr rfl
  · exact Or.inl rfl

theorem mergeShownLast_eq_empty (a b : String)
    (h : mergeShownLast a b = "") : a = "" ∧ b = "" := by
  unfold mergeShownLast at h
  split at h
  · next hc => exact absurd h hc.1
  · next hc =>
    push_neg at hc
    subst h
    by_cases hb : b = ""
    · exact ⟨rfl, hb⟩
    · rcases (hc hb) with ⟨ha, _⟩
      exact absurd rfl ha

theorem mergeShownLast_ge_left (a b : String) (ha : a ≠ "") :
    a ≤ mergeShownLast a b := by
  unfold mergeShownLast
  split
  · next hc =>
    rcases hc.2 with h | h
    · exact absurd h ha
    · exact le_of_lt h
  · exact le_refl a

theorem mergeShownLast_ge_right (a b : String) (hb : b ≠ "") :
    b ≤ mergeShownLast a b := by
  unfold mergeShownLast
  split
  · exact le_refl b
  · next hc =>
    push_neg at hc
    rcases hc hb with ⟨ha, hlt⟩
    exact le_of_not_lt hlt

/-- The shown-date fold computes `""` exactly when every input is empty, and
otherwise the least non-empty value among the seed and the list. -/
theorem foldl_mergeShownFirst_spec (l : List String) :
    ∀ a : String,
      (l.foldl mergeShownFirst a = "" → a = "" ∧ ∀ s ∈ l, s = "") ∧
      (l.foldl mergeShownFirst a ≠ "" →
        l.foldl mergeShownFirst a ∈ a :: l ∧
        (a ≠ "" → l.foldl mergeShownFirst a ≤ a) ∧
        ∀ s ∈ l, s ≠ "" → l.foldl mergeShownFirst a ≤ s) := by
  induction l with
  | nil =>
    intro a
    refine ⟨fun h => ⟨h, by simp⟩, fun _ => ⟨List.mem_singleton.mpr rfl, fun _ => le_refl a, by simp⟩⟩
  | cons b l ih =>
    intro a
    rw [List.foldl_cons]
    constructor
    · intro h
      obtain ⟨hab, hl⟩ := (ih (mergeShownFirst a b)).1 h
      obtain ⟨ha, hb⟩ := mergeShownFirst_eq_empty a b hab
      exact ⟨ha, fun s hs => by
        rcases List.mem_cons.mp hs with rfl | hs
        · exact hb
        · exact hl s hs⟩
    · intro h
      obtain ⟨hmem, hle, hall⟩ := (ih (mergeShownFirst a b)).2 h
      refine ⟨?_, ?_, ?_⟩
      · rcases List.mem_cons.mp hmem with h0 | h0
        · rcases mergeShownFirst_cases a b with hc | hc
          · rw [h0, hc]; exact List.mem_cons_self _ _
          · rw [h0, hc]; exact List.mem_cons_of_mem a (List.mem_cons_self _ _)
        · exact List.mem_cons_of_mem a (List.mem_cons_of_mem b h0)
      · intro ha
        have hne : mergeShownFirst a b ≠ "" :=
          fun he => ha (mergeShownFirst_eq_empty a b he).1
        exact le_trans (hle hne) (mergeShownFirst_le_left a b ha)
      · intro s hs hsne
        rcases List.mem_cons.mp hs with rfl | hs
        · have hne : mergeShownFirst a s ≠ "" :=
            fun he => hsne (mergeShownFirst_eq_empty a s he).2
          exact le_trans (hle hne) (mergeShownFirst_le_right a s hsne)
        · exact hall s hs hsne

/-- The shown-date fold computes `""` exactly when every input is empty, and
otherwise the greatest non-empty value among the seed and the list. -/
theorem foldl_mergeShownLast_spec (l : List String) :
    ∀ a : String,
      (l.foldl mergeShownLast a = "" → a = "" ∧ ∀ s ∈ l, s = "") ∧
      (l.foldl mergeShownLast a ≠ "" →
        l.foldl mergeShownLast a ∈ a :: l ∧
        (a ≠ "" → a ≤ l.foldl mergeShownLast a) ∧
        ∀ s ∈ l, s ≠ "" → s ≤ l.foldl mergeShownLast a) := by
  induction l with
  | nil =>
    intro a
    refine ⟨fun h => ⟨h, by simp⟩, fun _ => ⟨List.mem_singleton.mpr rfl, fun _ => le_refl a, by simp⟩⟩
  | cons b l ih =>
    intro a
    rw [List.foldl_cons]
    constructor
    · intro h
      obtain ⟨hab, hl⟩ := (ih (mergeShownLast a b)).1 h
      obtain ⟨ha, hb⟩ := mergeShownLast_eq_empty a b hab
      exact ⟨ha, fun s hs => by
        rcases List.mem_cons.mp hs with rfl | hs
        · exact hb
        · exact hl s hs⟩
    · intro h
      obtain ⟨hmem, hle, hall⟩ := (ih (mergeShownLast a b)).2 h
      refine ⟨?_, ?_, ?_⟩
      · rcases List.mem_cons.mp hmem with h0 | h0
        · rcases mergeShownLast_cases a b with hc | hc
          · rw [h0, hc]; exact List.mem_cons_self _ _
          · rw [h0, hc]; exact List.mem_cons_of_mem a (List.mem_cons_self _ _)
        · exact List.mem_cons_of_mem a (List.mem_cons_of_mem b h0)
      · intro ha
        have hne : mergeShownLast a b ≠ "" :=
          fun he => ha (mergeShownLast_eq_empty a b he).1
        exact le_trans (mergeShownLast_ge_left a b ha) (hle hne)
      · intro s hs hsne
        rcases List.mem_cons.mp hs with rfl | hs
        · have hne : mergeShownLast a s ≠ "" :=
            fun he => hsne (mergeShownLast_eq_empty a s he).2
          exact le_trans (mergeShownLast_ge_right a s hsne) (hle hne)
        · exact hall s hs hsne

/-! ### Characterisation of the members of `normalize_region_stats` -/

theorem find?_eq_head?_filter {β : Type u} (l : List β) (p : β → Bool) :
    l.find? p = (l.filter p).head? := by
  induction l with
  | nil => rfl
  | cons a l ih =>
    by_cases h : p a
    · rw [List.find?_cons_of_pos _ h, List.filter_cons_of_pos h, List.head?_cons]
    · rw [List.find?_cons_of_neg _ (by simpa using h),
        List.filter_cons_of_neg (by simpa using h), ih]

theorem impressions_mergeRegionSurfaces (r : RegionStat) :
    (mergeRegionSurfaces r).impressions = r.impressions := rfl

theorem first_mergeRegionSurfaces (r : RegionStat) :
    (mergeRegionSurfaces r).first_shown = r.first_shown := rfl

theorem last_mergeRegionSurfaces (r : RegionStat) :
    (mergeRegionSurfaces r).last_shown = r.last_shown := rfl

theorem mem_normalize_iff (rs : List RegionStat) (r : RegionStat) :
    r ∈ normalize_region_stats rs ↔
      r ∈ (collapseBy regionKey mergeRegion rs).map mergeRegionSurfaces := by
  exact (List.perm_insertionSort regionLe _).mem_iff

/-- Every member of `normalize_region_stats rs` is the surface-collapsed image
of the `mergeRegion`-fold of its own key group inside `rs`. -/
theorem normalize_mem_destruct (rs : List RegionStat) (r : RegionStat)
    (h : r ∈ normalize_region_stats rs) :
    ∃ r', collapseGroup mergeRegion (keyGroup regionKey (regionKey r) rs) = some r' ∧
      r = mergeRegionSurfaces r' := by
  rw [mem_normalize_iff] at h
  obtain ⟨r', hr', rfl⟩ := List.mem_map.mp h
  have hk : regionKey (mergeRegionSurfaces r') = regionKey r' :=
    regionKey_mergeRegionSurfaces r'
  rw [hk]
  obtain ⟨-, hg⟩ := (mem_collapseBy regionKey mergeRegion regionKey_mergeRegion rs r').mp hr'
  exact ⟨r', hg, rfl⟩

theorem collapseGroup_mergeRegion_bounds (g : List RegionStat) (r : RegionStat)
    (h : collapseGroup mergeRegion g = some r) :
    r.impressions.lower_bound = (g.map fun x => x.impressions.lower_bound).sum ∧
      r.impressions.upper_bound = (g.map fun x => x.impressions.upper_bound).sum := by
  cases g with
  | nil => exact absurd h (by simp [collapseGroup])
  | cons a t =>
    simp only [collapseGroup, Option.some.injEq] at h
    subst h
    constructor
    · rw [foldl_mergeRegion_lower, List.map_cons, List.sum_cons]
    · rw [foldl_mergeRegion_upper, List.map_cons, List.sum_cons]

theorem collapseGroup_mergeRegion_surfaces (g : List RegionStat) (r : RegionStat)
    (h : collapseGroup mergeRegion g = some r) :
    r.surface_serving_stats = (g.map RegionStat.surface_serving_stats).flatten := by
  cases g with
  | nil => exact absurd h (by simp [collapseGroup])
  | cons a t =>
    simp only [collapseGroup, Option.some.injEq] at h
    subst h
    rw [foldl_mergeRegion_surfaces, List.map_cons, List.flatten_cons]

theorem collapseGroup_mergeRegion_first (g : List RegionStat) (r : RegionStat)
    (h : collapseGroup mergeRegion g = some r) :
    (r.first_shown = "" → ∀ s ∈ g.map RegionStat.first_shown, s = "") ∧
      (r.first_shown ≠ "" →
        r.first_shown ∈ g.map RegionStat.first_shown ∧
        ∀ s ∈ g.map RegionStat.first_shown, s ≠ "" → r.first_shown ≤ s) := by
  cases g with
  | nil => exact absurd h (by simp [collapseGroup])
  | cons a t =>
    simp only [collapseGroup, Option.some.injEq] at h
    subst h
    rw [foldl_mergeRegion_first]
    have hspec := foldl_mergeShownFirst_spec (t.map RegionStat.first_shown) a.first_shown
    constructor
    · intro h0 s hs
      obtain ⟨ha, hall⟩ := hspec.1 h0
      rw [List.map_cons] at hs
      rcases List.mem_cons.mp hs with rfl | hs'
      · exact ha
      · exact hall s hs'
    · intro h0
      obtain ⟨hmem, hle, hall⟩ := hspec.2 h0
      refine ⟨by rw [List.map_cons]; exact hmem, ?_⟩
      intro s hs hsne
      rw [List.map_cons] at hs
      rcases List.mem_cons.mp hs with rfl | hs'
      · exact hle hsne
      · exact hall s hs' hsne

theorem collapseGroup_mergeRegion_last (g : List RegionStat) (r : RegionStat)
    (h : collapseGroup mergeRegion g = some r) :
    (r.last_shown = "" → ∀ s ∈ g.map RegionStat.last_shown, s = "") ∧
      (r.last_shown ≠ "" →
        r.last_shown ∈ g.map RegionStat.last_shown ∧
        ∀ s ∈ g.map RegionStat.last_shown, s ≠ "" → s ≤ r.last_shown) := by
  cases g with
  | nil => exact absurd h (by simp [collapseGroup])
  | cons a t =>
    simp only [collapseGroup, Option.some.injEq] at h
    subst h
    rw [foldl_mergeRegion_last]
    have hspec := foldl_mergeShownLast_spec (t.map RegionStat.last_shown) a.last_shown
    constructor
    · intro h0 s hs
      obtain ⟨ha, hall⟩ := hspec.1 h0
      rw [List.map_cons] at hs
      rcases List.mem_cons.mp hs with rfl | hs'
      · exact ha
      · exact hall s hs'
    · intro h0
      obtain ⟨hmem, hle, hall⟩ := hspec.2 h0
      refine ⟨by rw [List.map_cons]; exact hmem, ?_⟩
      intro s hs hsne
      rw [List.map_cons] at hs
      rcases List.mem_cons.mp hs with rfl | hs'
      · exact hle hsne
      · exact hall s hs' hsne

theorem collapseGroup_mergeSurface_fields (g : List SurfaceServingStat)
    (s : SurfaceServingStat) (h : collapseGroup mergeSurface g = some s) :
    ∃ a t, g = a :: t ∧ s.surface_code = a.surface_code ∧
      s.surface_name = a.surface_name ∧
      s.impressions.lower_bound = (g.map fun x => x.impressions.lower_bound).sum ∧
      s.impressions.upper_bound = (g.map fun x => x.impressions.upper_bound).sum := by
  cases g with
  | nil => exact absurd h (by simp [collapseGroup])
  | cons a t =>
    simp only [collapseGroup, Option.some.injEq] at h
    subst h
    refine ⟨a, t, rfl, foldl_mergeSurface_code t a, foldl_mergeSurface_name t a, ?_, ?_⟩
    · rw [foldl_mergeSurface_lower, List.map_cons, List.sum_cons]
    · rw [foldl_mergeSurface_upper, List.map_cons, List.sum_cons]

theorem nodup_keys_normalize (rs : List RegionStat) :
    ((normalize_region_stats rs).map regionKey).Nodup := by
  have hperm := (List.perm_insertionSort regionLe
    ((collapseBy regionKey mergeRegion rs).map mergeRegionSurfaces)).map regionKey
  apply hperm.nodup_iff.mpr
  rw [List.map_map]
  have : (regionKey ∘ mergeRegionSurfaces) = regionKey := by
    funext r
    exact regionKey_mergeRegionSurfaces r
  rw [this]
  exact nodup_map_key_collapseBy regionKey mergeRegion regionKey_mergeRegion rs

theorem surfaces_of_mem_normalize (rs : List RegionStat) (r : RegionStat)
    (h : r ∈ normalize_region_stats rs) :
    (r.surface_serving_stats.map surfKey).Nodup := by
  obtain ⟨r', -, rfl⟩ := normalize_mem_destruct rs r h
  exact nodup_map_key_collapseBy surfKey mergeSurface surfKey_mergeSurface _

theorem sorted_normalize (rs : List RegionStat) :
    List.Pairwise regionLe (normalize_region_stats rs) :=
  List.sorted_insertionSort regionLe _

theorem rowKeys_baseDict (ad : AdRecord) : rowKeys (baseDict ad) = baseKeys := rfl

theorem rowKeys_regionDict (r : RegionStat) : rowKeys (regionDict r) = regionFieldKeys := rfl

theorem rowKeys_surfaceDict (s : SurfaceServingStat) :
    rowKeys (surfaceDict s) = surfaceFieldKeys := rfl

theorem rowKeys_variationDict (v : AdVariation) :
    rowKeys (variationDict v) = variationFieldKeys := rfl

theorem rowKeys_targetingDict (ad : AdRecord) :
    rowKeys (targetingDict ad) =
      if ad.targeting.isSome then targetingFieldKeys else [] := by
  unfold targetingDict
  cases had : ad.targeting with
  | none => rfl
  | some t => rfl

theorem rowKeys_append (r₁ r₂ : Row) :
    rowKeys (r₁ ++ r₂) = rowKeys r₁ ++ rowKeys r₂ := by
  simp [rowKeys]

theorem ite_empty_length {β : Type u} (l : List β) (x : β) :
    (if l.isEmpty then [x] else l).length = max 1 l.length := by
  cases l with
  | nil => rfl
  | cons a t =>
    simp [List.isEmpty, Nat.max_eq_right (Nat.succ_le_succ (Nat.zero_le _))]

theorem sum_map_const_length {β : Type u} (l : List β) (n : ℕ) :
    (l.map fun _ => n).sum = l.length * n := by
  induction l with
  | nil => simp
  | cons a t ih => simp [ih, Nat.succ_mul, Nat.add_comm]

theorem surfaceRows_length (ad : AdRecord) (variations : List AdVariation)
    (region : RegionStat) :
    (surfaceRows ad variations region).length =
      max 1 region.surface_serving_stats.length * variations.length := by
  unfold surfaceRows
  rw [List.length_flatten, List.map_map]
  have hlen : (List.length ∘ fun surface =>
      variations.map (fun variation =>
        baseDict ad ++ regionDict region ++ surfaceDict surface ++
          targetingDict ad ++ variationDict variation)) = fun _ => variations.length := by
    funext s
    simp
  rw [hlen, sum_map_const_length, ite_empty_length]

theorem to_flat_dicts_length_eq (ad : AdRecord) :
    ad.to_flat_dicts.length =
      ((if ad.region_stats.isEmpty then [syntheticRegion] else ad.region_stats).map
        (fun r => max 1 r.surface_serving_stats.length *
          max 1 ad.variations.length)).sum := by
  unfold AdRecord.to_flat_dicts
  rw [List.length_flatten, List.map_map]
  congr 1
  apply List.map_congr_left
  intro r hr
  show (surfaceRows ad _ r).length = _
  rw [surfaceRows_length, ite_empty_length]

/-- Destructor for membership in `to_flat_dicts`: every row is the
concatenation of the five field dicts for some (possibly synthetic) region,
surface and variation. -/
theorem to_flat_dicts_mem_destruct (ad : AdRecord) (row : Row)
    (h : row ∈ ad.to_flat_dicts) :
    ∃ region surface variation,
      row = baseDict ad ++ regionDict region ++ surfaceDict surface ++
        targetingDict ad ++ variationDict variation ∧
      ((ad.region_stats = [] ∧ region = syntheticRegion) ∨ region ∈ ad.region_stats) ∧
      ((region.surface_serving_stats = [] ∧ surface = syntheticSurface) ∨
        surface ∈ region.surface_serving_stats) ∧
      ((ad.variations = [] ∧ variation = syntheticVariation) ∨
        variation ∈ ad.variations) := by
  unfold AdRecord.to_flat_dicts at h
  rw [List.mem_flatten] at h
  obtain ⟨rows, hrows, hrow⟩ := h
  rw [List.mem_map] at hrows
  obtain ⟨region, hregion, rfl⟩ := hrows
  unfold surfaceRows at hrow
  rw [List.mem_flatten] at hrow
  obtain ⟨rows₂, hrows₂, hrow₂⟩ := hrow
  rw [List.mem_map] at hrows₂
  obtain ⟨surface, hsurface, rfl⟩ := hrows₂
  rw [List.mem_map] at hrow₂
  obtain ⟨variation, hvariation, rfl⟩ := hrow₂
  refine ⟨region, surface, variation, rfl, ?_, ?_, ?_⟩
  · by_cases hr : ad.region_stats.isEmpty
    · rw [if_pos hr] at hregion
      exact Or.inl ⟨List.isEmpty_iff.mp hr, (List.mem_singleton.mp hregion)⟩
    · rw [if_neg hr] at hregion
      exact Or.inr hregion
  · by_cases hs : region.surface_serving_stats.isEmpty
    · rw [if_pos hs] at hsurface
      exact Or.inl ⟨List.isEmpty_iff.mp hs, (List.mem_singleton.mp hsurface)⟩
    · rw [if_neg hs] at hsurface
      exact Or.inr hsurface
  · by_cases hv : ad.variations.isEmpty
    · rw [if_pos hv] at hvariation
      exact Or.inl ⟨List.isEmpty_iff.mp hv, (List.mem_singleton.mp hvariation)⟩
    · rw [if_neg hv] at hvariation
      exact Or.inr hvariation

theorem storeGet_set_ne (st : RStore) (b i : Nat) (x : RegionStat) (h : b ≠ i) :
    storeGet (st.set b x) i = storeGet st i := by
  unfold storeGet
  rw [List.getD_eq_getElem?_getD, List.getD_eq_getElem?_getD, List.getElem?_set_ne h]

theorem phase1Step_eq (p : List Nat × RStore) (a : Nat) :
    phase1Step p a =
      match p.1.find?
          (fun b => decide (regionKey (storeGet p.2 b) = regionKey (storeGet p.2 a))) with
      | none => (p.1 ++ [a], p.2)
      | some b => (p.1, p.2.set b (mergeRegion (storeGet p.2 b) (storeGet p.2 a))) := rfl

theorem phase1_foldl_frame (addrs : List Nat) :
    ∀ (p : List Nat × RStore),
      (∀ b ∈ (addrs.foldl phase1Step p).1, b ∈ p.1 ∨ b ∈ addrs) ∧
      (∀ i, i ∉ p.1 → i ∉ addrs →
        storeGet (addrs.foldl phase1Step p).2 i = storeGet p.2 i) := by
  induction addrs with
  | nil => exact fun p => ⟨fun b hb => Or.inl hb, fun i _ _ => rfl⟩
  | cons a rest ih =>
    intro p
    rw [List.foldl_cons]
    have hstep1 : ∀ b ∈ (phase1Step p a).1, b ∈ p.1 ∨ b = a := by
      intro b hb
      rw [phase1Step_eq] at hb
      rcases hfind : p.1.find?
          (fun b => decide (regionKey (storeGet p.2 b) = regionKey (storeGet p.2 a))) with
        _ | c
      · rw [hfind] at hb
        simp only [List.mem_append, List.mem_singleton] at hb
        exact hb
      · rw [hfind] at hb
        exact Or.inl hb
    constructor
    · intro b hb
      rcases ((ih (phase1Step p a)).1 b hb) with hb' | hb'
      · rcases hstep1 b hb' with h0 | h0
        · exact Or.inl h0
        · exact Or.inr (h0 ▸ List.mem_cons_self a rest)
      · exact Or.inr (List.mem_cons_of_mem a hb')
    · intro i hi hirest
      have hia : i ≠ a := fun he => hirest (he ▸ List.mem_cons_self a rest)
      have hirest' : i ∉ rest := fun hm => hirest (List.mem_cons_of_mem a hm)
      have hi' : i ∉ (phase1Step p a).1 := by
        intro hm
        rcases hstep1 i hm with h0 | h0
        · exact hi h0
        · exact hia h0
      rw [(ih (phase1Step p a)).2 i hi' hirest', phase1Step_eq]
      rcases hfind : p.1.find?
          (fun b => decide (regionKey (storeGet p.2 b) = regionKey (storeGet p.2 a))) with
        _ | c
      · rfl
      · have hc : c ∈ p.1 := List.mem_of_find?_eq_some hfind
        exact storeGet_set_ne p.2 c i _ (fun he => hi (he ▸ hc))

theorem phase2_foldl_frame (addrs : List Nat) :
    ∀ (st : RStore) (i : Nat), i ∉ addrs →
      storeGet (addrs.foldl phase2Step st) i = storeGet st i := by
  induction addrs with
  | nil => exact fun st i _ => rfl
  | cons a rest ih =>
    intro st i hi
    have hia : i ≠ a := fun he => hi (he ▸ List.mem_cons_self a rest)
    rw [List.foldl_cons, ih _ i (fun hm => hi (List.mem_cons_of_mem a hm))]
    exact storeGet_set_ne st a i _ (fun he => hia he.symm)

/-! ## The claims -/

/-- C1: for every `AdRecord` with regions `R` (region `r` having `S_r`
surface stats) and `V` variations, `to_flat_dicts` returns exactly
`Σ_r max(1, S_r) · max(1, V)` rows, the sum taken as `max(1, V)` when there
are no regions; in particular an ad with zero regions, surfaces and
variations yields exactly one row. -/
theorem row_count_law :
    (∀ ad : AdRecord,
      ad.to_flat_dicts.length =
        if ad.region_stats = [] then max 1 ad.variations.length
        else (ad.region_stats.map (fun r =>
          max 1 r.surface_serving_stats.length * max 1 ad.variations.length)).sum) ∧
    adNoTargeting.to_flat_dicts.length = 1 := by
  constructor
  · intro ad
    rw [to_flat_dicts_length_eq]
    by_cases h : ad.region_stats.isEmpty
    · rw [if_pos h, if_pos (List.isEmpty_iff.mp h)]
      simp [syntheticRegion]
    · rw [if_neg h, if_neg (fun he => h (by rw [he]; rfl))]
  · rfl

/-- C2 counterexample: the claim "every row contains the four
`targeting*True` keys, and missing values become empty string or 0" fails on
an ad whose `targeting` is `None`: its single row carries no targeting keys
at all (the `targeting_dict` stays `{}`), and the synthetic variation fields
are `None`, not `""`. -/
theorem targeting_keys_missing_cex :
    adNoTargeting.to_flat_dicts.length = 1 ∧
    "targetingDemographicsTrue" ∉ rowKeys adNoTargeting.to_flat_dicts.headI ∧
    ("variationCta", Val.vnone) ∈ adNoTargeting.to_flat_dicts.headI := by
  refine ⟨rfl, by decide, by decide⟩

/-- C2 (amended): every row carries the ad-metadata, `region*`, `surface*`
and `variation*` keys in a fixed order, and the four `targeting*True` keys
exactly when the record has targeting info; a synthetic region fills its
fields with `""`/`0`, while a synthetic variation fills its fields with
`None`. -/
theorem flat_row_keys (ad : AdRecord) (row : Row) (h : row ∈ ad.to_flat_dicts) :
    rowKeys row = baseKeys ++ regionFieldKeys ++ surfaceFieldKeys ++
      (if ad.targeting.isSome then targetingFieldKeys else []) ++ variationFieldKeys ∧
    (ad.region_stats = [] → ("regionCode", Val.vs "") ∈ row ∧
      ("regionImpressionsLower", Val.vi 0) ∈ row) ∧
    (ad.variations = [] → ("variationCta", Val.vnone) ∈ row) := by
  obtain ⟨region, surface, variation, rfl, hreg, hsurf, hvar⟩ :=
    to_flat_dicts_mem_destruct ad row h
  refine ⟨?_, ?_, ?_⟩
  · rw [rowKeys_append, rowKeys_append, rowKeys_append, rowKeys_append,
      rowKeys_baseDict, rowKeys_regionDict, rowKeys_surfaceDict,
      rowKeys_targetingDict, rowKeys_variationDict]
  · intro hre
    have hsyn : region = syntheticRegion := by
      rcases hreg with ⟨-, h0⟩ | hmem
      · exact h0
      · rw [hre] at hmem
        exact absurd hmem (List.not_mem_nil _)
    subst hsyn
    constructor
    · exact List.mem_append_left _ (List.mem_append_left _ (List.mem_append_left _
        (List.mem_append_right _ (by decide))))
    · exact List.mem_append_left _ (List.mem_append_left _ (List.mem_append_left _
        (List.mem_append_right _ (by decide))))
  · intro hve
    have hsyn : variation = syntheticVariation := by
      rcases hvar with ⟨-, h0⟩ | hmem
      · exact h0
      · rw [hve] at hmem
        exact absurd hmem (List.not_mem_nil _)
    subst hsyn
    exact List.mem_append_right _ (by decide)

/-- C2 witness: the amended key-set law evaluated on the concrete
targeting-free ad. -/
theorem flat_row_keys_witness :
    rowKeys adNoTargeting.to_flat_dicts.headI =
      baseKeys ++ regionFieldKeys ++ surfaceFieldKeys ++
        (if adNoTargeting.targeting.isSome then targetingFieldKeys else []) ++
        variationFieldKeys ∧
    (adNoTargeting.region_stats = [] →
      ("regionCode", Val.vs "") ∈ adNoTargeting.to_flat_dicts.headI ∧
      ("regionImpressionsLower", Val.vi 0) ∈ adNoTargeting.to_flat_dicts.headI) ∧
    (adNoTargeting.variations = [] →
      ("variationCta", Val.vnone) ∈ adNoTargeting.to_flat_dicts.headI) :=
  flat_row_keys adNoTargeting adNoTargeting.to_flat_dicts.headI (by decide)

/-- C3 counterexample: in the dict-based parser `_parse_impression_range`, a
coercion failure does NOT zero that bound alone — the single shared
`try` zeroes BOTH bounds.  On `{"lowerBound": "abc", "upperBound": "5"}` the
upper bound coerces to 5 on its own, yet the parser returns `(0, 0)`,
not `(0, 5)`. -/
theorem impression_bound_zeroing_cex :
    _parse_impression_range (some impRawAbcFive) = ⟨0, 0⟩ ∧
    pyInt (rawBound impRawAbcFive "upperBound") = some 5 := by
  refine ⟨by decide, by decide⟩

/-- C3 (amended): neither impression-range parser raises (both are total on
their annotated domains).  In the string-pair parser
`_parse_impressions_range` each bound is coerced independently and a
coercion failure yields 0 for that bound alone; in the dict parser
`_parse_impression_range` a failing `int()` on either bound yields `(0, 0)`
for both.  `{"lowerBound": "abc", "upperBound": None}` returns `(0, 0)`. -/
theorem impression_range_parsers_spec :
    (∀ l u u' : Option String,
      (_parse_impressions_range l u).lowerBound =
        (_parse_impressions_range l u').lowerBound) ∧
    (∀ l l' u : Option String,
      (_parse_impressions_range l u).upperBound =
        (_parse_impressions_range l' u).upperBound) ∧
    (to_int none = 0) ∧
    (∀ s : String, s ≠ "" → pyStrToInt (pyStrip (stripCommas s)) = none →
      to_int (some s) = 0) ∧
    (∀ (s : String) (n : Int), s ≠ "" → pyStrToInt (pyStrip (stripCommas s)) = some n →
      to_int (some s) = n) ∧
    (∀ d, pyInt (rawBound d "lowerBound") = none ∨ pyInt (rawBound d "upperBound") = none →
      _parse_impression_range (some d) = ⟨0, 0⟩) ∧
    (_parse_impression_range none = ⟨0, 0⟩) ∧
    (_parse_impression_range (some impRawAbcNone) = ⟨0, 0⟩) := by
  refine ⟨fun l u u' => rfl, fun l l' u => rfl, rfl, ?_, ?_, ?_, rfl, by decide⟩
  · intro s hs h0
    show (if s = "" then (0 : Int) else (pyStrToInt (pyStrip (stripCommas s))).getD 0) = 0
    rw [if_neg hs, h0]
    rfl
  · intro s n hs h0
    show (if s = "" then (0 : Int) else (pyStrToInt (pyStrip (stripCommas s))).getD 0) = n
    rw [if_neg hs, h0]
    rfl
  · intro d h
    show (if d.isEmpty then (⟨0, 0⟩ : ImpressionRange)
      else
        match pyInt (rawBound d "lowerBound"), pyInt (rawBound d "upperBound") with
        | some l, some u => ⟨l, u⟩
        | _, _ => ⟨0, 0⟩) = ⟨0, 0⟩
    by_cases hd : d.isEmpty
    · rw [if_pos hd]
    · rw [if_neg hd]
      rcases h with h | h
      · rw [h]
      · rw [h]
        rcases pyInt (rawBound d "lowerBound") with _ | l <;> rfl

/-- C3 witness: the amended coercion law evaluated at `"abc"` and at the
concrete dict with an uncoercible lower bound. -/
theorem impression_range_parsers_spec_witness :
    to_int (some "abc") = 0 ∧ _parse_impression_range (some impRawAbcFive) = ⟨0, 0⟩ :=
  ⟨impression_range_parsers_spec.2.2.2.1 "abc" (by decide) (by decide),
   impression_range_parsers_spec.2.2.2.2.2.1 impRawAbcFive (Or.inl (by decide))⟩

/-- C4: the impression bounds of every aggregated region equal the bound-wise
sum over all raw entries sharing its identity key (in particular, of both
inputs when two entries share the key); and inside a canonical region every
surface is the first same-code occurrence of the group's concatenated surface
pool — `surface_name` retained from it — with impressions summed bound-wise
over all same-code duplicates. -/
theorem merged_region_sums (rs : List RegionStat) (r : RegionStat)
    (h : r ∈ normalize_region_stats rs) :
    (r.impressions.lower_bound =
        ((keyGroup regionKey (regionKey r) rs).map
          (fun x => x.impressions.lower_bound)).sum ∧
      r.impressions.upper_bound =
        ((keyGroup regionKey (regionKey r) rs).map
          (fun x => x.impressions.upper_bound)).sum) ∧
    (∀ s ∈ r.surface_serving_stats,
      ∃ first rest,
        keyGroup surfKey (surfKey s)
            (((keyGroup regionKey (regionKey r) rs).map
              RegionStat.surface_serving_stats).flatten) = first :: rest ∧
        s.surface_code = first.surface_code ∧
        s.surface_name = first.surface_name ∧
        s.impressions.lower_bound =
          ((first :: rest).map (fun x => x.impressions.lower_bound)).sum ∧
        s.impressions.upper_bound =
          ((first :: rest).map (fun x => x.impressions.upper_bound)).sum) := by
  obtain ⟨r', hg, rfl⟩ := normalize_mem_destruct rs r h
  rw [regionKey_mergeRegionSurfaces]
  constructor
  · rw [impressions_mergeRegionSurfaces]
    exact collapseGroup_mergeRegion_bounds _ r' hg
  · intro s hs
    have hpool : r'.surface_serving_stats =
        ((keyGroup regionKey (regionKey r') rs).map
          RegionStat.surface_serving_stats).flatten :=
      collapseGroup_mergeRegion_surfaces _ r' hg
    have hs' : s ∈ collapseBy surfKey mergeSurface r'.surface_serving_stats := hs
    obtain ⟨-, hgrp⟩ :=
      (mem_collapseBy surfKey mergeSurface surfKey_mergeSurface _ s).mp hs'
    rw [hpool] at hgrp
    obtain ⟨first, rest, hcons, hcode, hname, hlow, hup⟩ :=
      collapseGroup_mergeSurface_fields _ s hgrp
    rw [hcons] at hlow hup
    exact ⟨first, rest, hcons, hcode, hname, hlow, hup⟩

/-- C4 witness: the sum law evaluated on the duplicated-key sample input. -/
theorem merged_region_sums_witness :
    (mergedUS.impressions.lower_bound =
        ((keyGroup regionKey (regionKey mergedUS) sampleRegions).map
          (fun x => x.impressions.lower_bound)).sum ∧
      mergedUS.impressions.upper_bound =
        ((keyGroup regionKey (regionKey mergedUS) sampleRegions).map
          (fun x => x.impressions.upper_bound)).sum) ∧
    (∀ s ∈ mergedUS.surface_serving_stats,
      ∃ first rest,
        keyGroup surfKey (surfKey s)
            (((keyGroup regionKey (regionKey mergedUS) sampleRegions).map
              RegionStat.surface_serving_stats).flatten) = first :: rest ∧
        s.surface_code = first.surface_code ∧
        s.surface_name = first.surface_name ∧
        s.impressions.lower_bound =
          ((first :: rest).map (fun x => x.impressions.lower_bound)).sum ∧
        s.impressions.upper_bound =
          ((first :: rest).map (fun x => x.impressions.upper_bound)).sum) :=
  merged_region_sums sampleRegions mergedUS (by decide)

/-- C5: a merged region's `first_shown` is the lexicographically smallest
non-empty `first_shown` among the raw entries sharing its identity key, and
its `last_shown` the largest non-empty `last_shown` — empty strings ignored
(stated under the hypothesis that a non-empty candidate exists; when every
candidate is empty the merged field is `""`). -/
theorem merged_region_date_range (rs : List RegionStat) (r : RegionStat)
    (h : r ∈ normalize_region_stats rs) :
    (((keyGroup regionKey (regionKey r) rs).map RegionStat.first_shown).filter
        (fun s => decide (s ≠ "")) ≠ [] →
      r.first_shown ∈
        ((keyGroup regionKey (regionKey r) rs).map RegionStat.first_shown).filter
          (fun s => decide (s ≠ "")) ∧
      ∀ s ∈ ((keyGroup regionKey (regionKey r) rs).map RegionStat.first_shown).filter
          (fun s => decide (s ≠ "")), r.first_shown ≤ s) ∧
    (((keyGroup regionKey (regionKey r) rs).map RegionStat.last_shown).filter
        (fun s => decide (s ≠ "")) ≠ [] →
      r.last_shown ∈
        ((keyGroup regionKey (regionKey r) rs).map RegionStat.last_shown).filter
          (fun s => decide (s ≠ "")) ∧
      ∀ s ∈ ((keyGroup regionKey (regionKey r) rs).map RegionStat.last_shown).filter
          (fun s => decide (s ≠ "")), s ≤ r.last_shown) := by
  obtain ⟨r', hg, rfl⟩ := normalize_mem_destruct rs r h
  rw [regionKey_mergeRegionSurfaces, first_mergeRegionSurfaces, last_mergeRegionSurfaces]
  have hf := collapseGroup_mergeRegion_first _ r' hg
  have hl := collapseGroup_mergeRegion_last _ r' hg
  constructor
  · intro hne
    have hne' : r'.first_shown ≠ "" := by
      intro h0
      apply hne
      rw [List.filter_eq_nil_iff]
      intro a ha
      simp only [decide_eq_true_eq, not_not]
      exact hf.1 h0 a ha
    obtain ⟨hmem, hmin⟩ := hf.2 hne'
    refine ⟨List.mem_filter.mpr ⟨hmem, by simpa using hne'⟩, ?_⟩
    intro s hs
    obtain ⟨hsm, hsd⟩ := List.mem_filter.mp hs
    exact hmin s hsm (by simpa using hsd)
  · intro hne
    have hne' : r'.last_shown ≠ "" := by
      intro h0
      apply hne
      rw [List.filter_eq_nil_iff]
      intro a ha
      simp only [decide_eq_true_eq, not_not]
      exact hl.1 h0 a ha
    obtain ⟨hmem, hmax⟩ := hl.2 hne'
    refine ⟨List.mem_filter.mpr ⟨hmem, by simpa using hne'⟩, ?_⟩
    intro s hs
    obtain ⟨hsm, hsd⟩ := List.mem_filter.mp hs
    exact hmax s hsm (by simpa using hsd)

/-- C5 witness: the date-widening law evaluated on the duplicated-key sample
input (`first_shown` = "2024-01-02", `last_shown` = "2024-03-01"). -/
theorem merged_region_date_range_witness :
    mergedUS.first_shown ∈
      ((keyGroup regionKey (regionKey mergedUS) sampleRegions).map
        RegionStat.first_shown).filter (fun s => decide (s ≠ "")) ∧
    ∀ s ∈ ((keyGroup regionKey (regionKey mergedUS) sampleRegions).map
        RegionStat.first_shown).filter (fun s => decide (s ≠ "")),
      mergedUS.first_shown ≤ s :=
  (merged_region_date_range sampleRegions mergedUS (by decide)).1 (by decide)

/-- C6: `normalize_region_stats` returns at most one region per
`(region_code, region_name)` key and at most one surface per `surface_code`
inside each region, sorted ascending by the key pair; the empty input yields
the empty output. -/
theorem normalize_invariants (rs : List RegionStat) :
    normalize_region_stats ([] : List RegionStat) = [] ∧
    ((normalize_region_stats rs).map regionKey).Nodup ∧
    (∀ r ∈ normalize_region_stats rs, (r.surface_serving_stats.map surfKey).Nodup) ∧
    List.Pairwise regionLe (normalize_region_stats rs) :=
  ⟨rfl, nodup_keys_normalize rs, fun r hr => surfaces_of_mem_normalize rs r hr,
    sorted_normalize rs⟩

/-- C6 witness: the surface-dedup invariant evaluated on the sample region
produced from a duplicated surface code. -/
theorem normalize_invariants_witness :
    (mergedUS.surface_serving_stats.map surfKey).Nodup :=
  (normalize_invariants sampleRegions).2.2.1 mergedUS (by decide)

/-- C7: `normalize_region_stats` is idempotent — a second aggregation pass
over its (key-deduplicated, surface-deduplicated, sorted) output changes
nothing. -/
theorem normalize_idempotent (rs : List RegionStat) :
    normalize_region_stats (normalize_region_stats rs) = normalize_region_stats rs := by
  have hnd := nodup_keys_normalize rs
  have hid : ∀ r ∈ normalize_region_stats rs, mergeRegionSurfaces r = r := by
    intro r hr
    have hsnd := surfaces_of_mem_normalize rs r hr
    unfold mergeRegionSurfaces
    rw [collapseBy_of_nodup_keys surfKey mergeSurface _ hsnd]
  have hmap : (normalize_region_stats rs).map mergeRegionSurfaces =
      normalize_region_stats rs := by
    calc (normalize_region_stats rs).map mergeRegionSurfaces
        = (normalize_region_stats rs).map id := List.map_congr_left hid
      _ = normalize_region_stats rs := List.map_id _
  show List.insertionSort regionLe
      ((collapseBy regionKey mergeRegion (normalize_region_stats rs)).map
        mergeRegionSurfaces) = normalize_region_stats rs
  rw [collapseBy_of_nodup_keys regionKey mergeRegion _ hnd, hmap]
  exact List.Sorted.insertionSort_eq (sorted_normalize rs)

theorem foldl_pair_merge {β : Type u} {γ : Type v} (t : List (β × γ)) :
    ∀ a : β × γ, (∀ x ∈ t, x.1 = a.1) →
      t.foldl (fun old new => (old.1, new.2)) a ∈ a :: t := by
  induction t with
  | nil => exact fun a _ => List.mem_singleton.mpr rfl
  | cons b t ih =>
    intro a hall
    rw [List.foldl_cons]
    have hb1 : b.1 = a.1 := hall b (List.mem_cons_self b t)
    have hb : (a.1, b.2) = b := by rw [← hb1]
    rw [hb]
    have hall' : ∀ x ∈ t, x.1 = b.1 := fun x hx =>
      (hall x (List.mem_cons_of_mem b hx)).trans hb1.symm
    exact List.mem_cons_of_mem a (ih b hall')

/-- Each entry of a dict rebuilt by repeated assignment (`collapseBy` on the
first component with last-value-wins merging) is one of the source pairs:
the kept key comes from the first same-key pair and the kept value from the
last, and those agree on the key. -/
theorem mem_collapseBy_pair {β : Type u} {γ : Type v} [DecidableEq β]
    (ys : List (β × γ)) (p : β × γ)
    (h : p ∈ collapseBy Prod.fst (fun old new => (old.1, new.2)) ys) : p ∈ ys := by
  obtain ⟨-, hg⟩ :=
    (mem_collapseBy Prod.fst (fun old new => (old.1, new.2)) (fun a b => rfl) ys p).mp h
  cases hgr : keyGroup Prod.fst p.1 ys with
  | nil => rw [hgr] at hg; exact absurd hg (by simp [collapseGroup])
  | cons a t =>
    rw [hgr] at hg
    simp only [collapseGroup, Option.some.injEq] at hg
    have hsub : ∀ x ∈ a :: t, x ∈ ys := by
      intro x hx
      have hx' : x ∈ keyGroup Prod.fst p.1 ys := by rw [hgr]; exact hx
      exact List.mem_of_mem_filter hx'
    have hall : ∀ x ∈ t, x.1 = a.1 := by
      intro x hx
      have hx' : x ∈ keyGroup Prod.fst p.1 ys := by
        rw [hgr]; exact List.mem_cons_of_mem a hx
      have ha' : a ∈ keyGroup Prod.fst p.1 ys := by
        rw [hgr]; exact List.mem_cons_self a t
      have hx2 : x ∈ List.filter (fun a => decide (a.1 = p.1)) ys := hx'
      have ha2 : a ∈ List.filter (fun a => decide (a.1 = p.1)) ys := ha'
      have h1 : x.1 = p.1 := of_decide_eq_true (List.mem_filter.mp hx2).2
      have h2 : a.1 = p.1 := of_decide_eq_true (List.mem_filter.mp ha2).2
      rw [h1, h2]
    have := foldl_pair_merge t a hall
    rw [hg] at this
    exact hsub p this

/-- C8 counterexample: `parse_targeting` CAN raise.  On the truthy input
`{"targetingCategory": 5}` the code reaches `category.get("demographics")`
with `category = 5` and raises `AttributeError` — contradicting "never
raises for any input". -/
theorem parse_targeting_raises_cex :
    parse_targeting (some targRawBad) = .error "AttributeError" := rfl

/-- C8 (amended): `parse_targeting` returns `none` on an absent or falsy
input; when the `targetingCategory` entry is absent or a mapping it returns
a `TargetingInfo` whose four categories are `_ensure_bool_map` images —
stringified keys, truthiness-coerced values, absent or non-mapping sub-values
giving empty maps; but when `targetingCategory` holds a non-mapping value it
raises `AttributeError`. -/
theorem parse_targeting_spec :
    (parse_targeting none = .ok none) ∧
    (∀ d, d.isEmpty → parse_targeting (some d) = .ok none) ∧
    (∀ d cd, ¬ d.isEmpty = true →
      dictGetD d (.kstr "targetingCategory") (.vdict []) = .vdict cd →
      parse_targeting (some d) = .ok (some
        { demographics := _ensure_bool_map (dictGetD cd (.kstr "demographics") .vnone)
          geography := _ensure_bool_map (dictGetD cd (.kstr "geography") .vnone)
          contextual := _ensure_bool_map (dictGetD cd (.kstr "contextual") .vnone)
          advertiser_list := _ensure_bool_map (dictGetD cd (.kstr "advertiserList") .vnone) })) ∧
    (∀ d, ¬ d.isEmpty = true →
      (∀ cd, dictGetD d (.kstr "targetingCategory") (.vdict []) ≠ .vdict cd) →
      parse_targeting (some d) = .error "AttributeError") ∧
    (∀ v : PyVal, (∀ xs, v ≠ .vdict xs) → _ensure_bool_map v = []) ∧
    (∀ xs p, p ∈ _ensure_bool_map (.vdict xs) →
      ∃ q ∈ xs, p = (q.1.pyStr, q.2.truthy)) ∧
    (∀ xs, ((_ensure_bool_map (PyVal.vdict xs)).map Prod.fst).Nodup) := by
  refine ⟨rfl, ?_, ?_, ?_, ?_, ?_, ?_⟩
  · intro d h
    show (if d.isEmpty then Except.ok none
      else (parseTargetingCategory d).map some) = .ok none
    rw [if_pos h]
  · intro d cd hne hcd
    show (if d.isEmpty then Except.ok none
      else (parseTargetingCategory d).map some) = _
    rw [if_neg hne]
    unfold parseTargetingCategory
    rw [hcd]
    rfl
  · intro d hne hno
    show (if d.isEmpty then Except.ok none
      else (parseTargetingCategory d).map some) = _
    rw [if_neg hne]
    unfold parseTargetingCategory
    rcases hv : dictGetD d (.kstr "targetingCategory") (.vdict []) with _ | b | n | s | xs | xs
    · rfl
    · rfl
    · rfl
    · rfl
    · rfl
    · exact absurd hv (hno xs)
  · intro v hv
    cases v with
    | vdict xs => exact absurd rfl (hv xs)
    | vnone => rfl
    | vbool b => rfl
    | vint n => rfl
    | vstr s => rfl
    | vlist xs => rfl
  · intro xs p hp
    have hp' : p ∈ xs.map (fun q => (q.1.pyStr, q.2.truthy)) :=
      mem_collapseBy_pair _ p hp
    obtain ⟨q, hq, hfq⟩ := List.mem_map.mp hp'
    exact ⟨q, hq, hfq.symm⟩
  · intro xs
    exact nodup_map_key_collapseBy Prod.fst (fun old new => (old.1, new.2))
      (fun a b => rfl) _

/-- C8 witness: the amended law evaluated on a well-formed targeting payload
(one truthy code, one falsy code, one non-mapping sub-value). -/
theorem parse_targeting_spec_witness :
    parse_targeting (some targRawGood) = .ok (some
      { demographics := _ensure_bool_map (dictGetD targCatGood (.kstr "demographics") .vnone)
        geography := _ensure_bool_map (dictGetD targCatGood (.kstr "geography") .vnone)
        contextual := _ensure_bool_map (dictGetD targCatGood (.kstr "contextual") .vnone)
        advertiser_list := _ensure_bool_map (dictGetD targCatGood (.kstr "advertiserList") .vnone) }) :=
  parse_targeting_spec.2.2.1 targRawGood targCatGood (by decide) rfl

/-- C9: `parse_ads` never propagates a failure: its result is exactly the
list of successfully constructed records in input order, and a raw entry
whose construction raises is skipped while the rest are still processed. -/
theorem parse_ads_skips_failures :
    (∀ raws : List PyVal,
      parse_ads raws = raws.filterMap (fun r => (buildAd r).toOption)) ∧
    (∀ (xs ys : List PyVal) (bad : PyVal) (e : String),
      buildAd bad = .error e →
      parse_ads (xs ++ bad :: ys) = parse_ads xs ++ parse_ads ys) := by
  have h1 : ∀ raws : List PyVal,
      parse_ads raws = raws.filterMap (fun r => (buildAd r).toOption) := by
    intro raws
    induction raws with
    | nil => rfl
    | cons raw rest ih =>
      cases hb : buildAd raw with
      | ok ad => simp [parse_ads, hb, List.filterMap_cons, Except.toOption, ih]
      | error e => simp [parse_ads, hb, List.filterMap_cons, Except.toOption, ih]
  refine ⟨h1, ?_⟩
  intro xs ys bad e hb
  simp only [h1]
  rw [List.filterMap_append, List.filterMap_cons, hb]
  rfl

/-- C9 witness: the skip law evaluated on a batch with one malformed entry
(an int, which raises at `raw.get`). -/
theorem parse_ads_skips_failures_witness :
    parse_ads ([adRawEmpty] ++ adRawBad :: [adRawEmpty]) =
      parse_ads [adRawEmpty] ++ parse_ads [adRawEmpty] :=
  parse_ads_skips_failures.2 [adRawEmpty] [adRawEmpty] adRawBad "AttributeError" rfl

/-- C10 counterexample: `normalize_region_stats` does NOT leave its input
objects unchanged (its own docstring says it "operates in-place"): after
running it on two same-key region objects, the first (canonical) object's
value has changed — its impressions were summed in place. -/
theorem normalize_mutates_input_cex :
    storeGet (normalize_region_stats_store [0, 1] storeEx).2 0 ≠
      storeGet storeEx 0 := by
  decide

/-- C10 (amended): `normalize_region_stats` mutates only the region objects
passed to it — every heap object whose address is not among its inputs is
left unchanged (and the pure value-level functions of this development,
`normalize_region_stats` on values and `to_flat_dicts`, compute their results
without any store at all). -/
theorem normalize_store_frame (addrs : List Nat) (st : RStore) (i : Nat)
    (h : i ∉ addrs) :
    storeGet (normalize_region_stats_store addrs st).2 i = storeGet st i := by
  have hp := phase1_foldl_frame addrs ([], st)
  have hmem : i ∉ (addrs.foldl phase1Step ([], st)).1 := by
    intro hm
    rcases hp.1 i hm with h0 | h0
    · exact absurd h0 (List.not_mem_nil i)
    · exact h h0
  show storeGet ((addrs.foldl phase1Step ([], st)).1.foldl phase2Step
      (addrs.foldl phase1Step ([], st)).2) i = storeGet st i
  rw [phase2_foldl_frame _ _ i hmem]
  exact hp.2 i (List.not_mem_nil i) h

/-- C10 witness: the frame law evaluated on the three-object heap — the
Canadian region at the unpassed address 2 is untouched. -/
theorem normalize_store_frame_witness :
    storeGet (normalize_region_stats_store [0, 1] storeEx).2 2 =
      storeGet storeEx 2 :=
  normalize_store_frame [0, 1] storeEx 2 (by decide)

end Scraper
